import Mathlib

/- Shallow embedding of lmars/packer-post-processor-vagrant-s3.

   manifest.go: `Manifest`, `Version`, `Provider`, `add`, `getLatestVersion`,
   `getNextVersion`, together with the fragment of github.com/blang/semver
   v3.5.1 that manifest.go uses (`Make`/`Parse`, `Compare`/`LT`, `String`).

   Modelling conventions:
   - Go strings are `List Char` in the semver layer (every character the
     semver grammar accepts is ASCII, where Go's byte-wise string operations
     and codepoint-wise operations agree); the manifest layer keeps `String`
     and converts at the boundary.
   - Go's `uint64` is `Nat` with the explicit `2^64` bound that
     `strconv.ParseUint(_, 10, 64)` enforces, and wrap-around modulo `2^64`
     where Go's `++` can overflow.
   - Error *messages* of the semver library are not modelled (manifest.go
     discards them with `_`), so fallible semver operations return `Option`.
   - Go methods that mutate a struct through a pointer and return an `error`
     are modelled as functions returning the updated value together with the
     optional error. -/

def U64 : Nat := 2 ^ 64

/-- blang/semver `containsOnly(s, numbers)` character test: one of "0123456789". -/
def isNumberChar (c : Char) : Bool := 48 ≤ c.toNat && c.toNat ≤ 57

/-- blang/semver `containsOnly(s, alphanum)` character test:
    "abcdefghijklmnopqrstuvwxyzABCDEFGHIJKLMNOPQRSTUVWXYZ-" plus the digits. -/
def isAlphanumChar (c : Char) : Bool :=
  isNumberChar c || (97 ≤ c.toNat && c.toNat ≤ 122) ||
    (65 ≤ c.toNat && c.toNat ≤ 90) || c = '-'

/-- blang/semver `hasLeadingZeroes`: length > 1 and starts with '0'. -/
def hasLeadingZeroes (s : List Char) : Bool :=
  match s with
  | c :: _ :: _ => c = '0'
  | _ => false

/-- The value of a digit string read left to right (the accumulation
    `strconv.ParseUint` performs). -/
def digitsVal (s : List Char) : Nat := s.foldl (fun a c => 10 * a + (c.toNat - 48)) 0

/-- Go `strconv.ParseUint(s, 10, 64)` on the digit strings the semver parser
    feeds it: errors on the empty string, on a non-digit, and on a value that
    does not fit in 64 bits. -/
def parseUint64 (s : List Char) : Option Nat :=
  if s = [] then none
  else if s.all isNumberChar then
    if digitsVal s < U64 then some (digitsVal s) else none
  else none

/-- blang/semver `PRVersion`: one pre-release identifier, numeric or alphanumeric. -/
inductive PRVersion where
  | num (n : Nat)
  | str (s : List Char)
deriving DecidableEq, Repr

/-- blang/semver `NewPRVersion`. -/
def newPRVersion (s : List Char) : Option PRVersion :=
  if s = [] then none
  else if s.all isNumberChar then
    if hasLeadingZeroes s then none
    else match parseUint64 s with
      | some n => some (.num n)
      | none => none
  else if s.all isAlphanumChar then some (.str s)
  else none

/-- blang/semver `Version` (the manifest layer only reads/writes whole values). -/
structure SemVer where
  major : Nat
  minor : Nat
  patch : Nat
  pre : List PRVersion
  build : List (List Char)
deriving DecidableEq, Repr

/-- Split at the first occurrence of `c` (Go `strings.IndexRune` plus
    slicing); `none` when `c` does not occur. -/
def splitFirst (c : Char) : List Char → Option (List Char × List Char)
  | [] => none
  | x :: xs =>
    if x = c then some ([], xs)
    else match splitFirst c xs with
      | none => none
      | some (a, b) => some (x :: a, b)

/-- Go `strings.SplitN(s, ".", 3)`. -/
def splitN3Dots (s : List Char) : List (List Char) :=
  match splitFirst '.' s with
  | none => [s]
  | some (a, rest) =>
    match splitFirst '.' rest with
    | none => [a, rest]
    | some (b, r2) => [a, b, r2]

/-- The pre-release loop of blang/semver `Parse`: each dot-separated
    identifier through `NewPRVersion`, failing on the first bad one. -/
def parsePreList : List (List Char) → Option (List PRVersion)
  | [] => some []
  | s :: rest =>
    match newPRVersion s with
    | none => none
    | some p =>
      match parsePreList rest with
      | none => none
      | some ps => some (p :: ps)

/-- The build-metadata loop of blang/semver `Parse`: identifiers must be
    nonempty and alphanumeric. -/
def parseBuildList : List (List Char) → Option (List (List Char))
  | [] => some []
  | s :: rest =>
    if s = [] then none
    else if s.all isAlphanumChar then
      match parseBuildList rest with
      | none => none
      | some bs => some (s :: bs)
    else none

/-- The `'+'` statement of `Parse`: split build metadata off the tail
    (`strings.IndexRune(patchStr, '+')` plus `strings.Split`). -/
def cutBuild (rest : List Char) : List Char × List (List Char) :=
  match splitFirst '+' rest with
  | none => (rest, [])
  | some (a, b) => (a, List.splitOn '.' b)

/-- The `'-'` statement of `Parse`: split the pre-release identifiers off
    the patch part. -/
def cutPre (patchStr1 : List Char) : List Char × List (List Char) :=
  match splitFirst '-' patchStr1 with
  | none => (patchStr1, [])
  | some (a, b) => (a, List.splitOn '.' b)

/-- blang/semver v3.5.1 `Parse` (and `Make`, which is identical): strict
    semantic-version parsing. -/
def semverParse (s : List Char) : Option SemVer :=
  if s = [] then none
  else
    match splitN3Dots s with
    | [p0, p1, rest] =>
      if ¬ p0.all isNumberChar then none
      else if hasLeadingZeroes p0 then none
      else
        match parseUint64 p0 with
        | none => none
        | some major =>
          if ¬ p1.all isNumberChar then none
          else if hasLeadingZeroes p1 then none
          else
            match parseUint64 p1 with
            | none => none
            | some minor =>
              match cutBuild rest with
              | (patchStr1, build) =>
                match cutPre patchStr1 with
                | (patchStr, prerelease) =>
                  if ¬ patchStr.all isNumberChar then none
                  else if hasLeadingZeroes patchStr then none
                  else
                    match parseUint64 patchStr with
                    | none => none
                    | some patch =>
                      match parsePreList prerelease with
                      | none => none
                      | some pre =>
                        match parseBuildList build with
                        | none => none
                        | some buildIds => some ⟨major, minor, patch, pre, buildIds⟩
    | _ => none

/-- Go byte-wise string comparison (`<`, `>` on strings), restricted to the
    ASCII alphanumeric identifiers the parser produces, where byte order and
    codepoint order agree: -1 / 0 / 1. -/
def charListCompare : List Char → List Char → Int
  | [], [] => 0
  | [], _ :: _ => -1
  | _ :: _, [] => 1
  | a :: as, b :: bs =>
    if a.toNat < b.toNat then -1
    else if b.toNat < a.toNat then 1
    else charListCompare as bs

/-- blang/semver `PRVersion.Compare`: numeric identifiers sort below
    alphanumeric ones; numeric compare by value, alphanumeric by Go string
    order. -/
def prCompare : PRVersion → PRVersion → Int
  | .num a, .num b => if a = b then 0 else if a > b then 1 else -1
  | .num _, .str _ => -1
  | .str _, .num _ => 1
  | .str a, .str b => if a = b then 0 else if charListCompare a b = 1 then 1 else -1

/-- The identifier loop plus length tie-break of blang/semver
    `Version.Compare` on two pre-release lists. -/
def preListCompare : List PRVersion → List PRVersion → Int
  | [], [] => 0
  | [], _ :: _ => -1
  | _ :: _, [] => 1
  | a :: as, b :: bs =>
    let c := prCompare a b
    if c = 0 then preListCompare as bs else c

/-- blang/semver `Version.Compare`: major, minor, patch, then pre-release
    (absence of pre-release sorts highest); build metadata is ignored. -/
def semverCompare (v o : SemVer) : Int :=
  if v.major ≠ o.major then (if v.major > o.major then 1 else -1)
  else if v.minor ≠ o.minor then (if v.minor > o.minor then 1 else -1)
  else if v.patch ≠ o.patch then (if v.patch > o.patch then 1 else -1)
  else if v.pre = [] ∧ o.pre = [] then 0
  else if v.pre = [] ∧ o.pre ≠ [] then 1
  else if v.pre ≠ [] ∧ o.pre = [] then -1
  else preListCompare v.pre o.pre

/-- blang/semver `Version.LT`: `Compare < 0`. -/
def SemVer.lt (v o : SemVer) : Bool := decide (semverCompare v o < 0)

/-- Decimal digit character (strconv's digit table). -/
def digitChar (d : Nat) : Char := Char.ofNat (48 + d)

/-- Fuel-driven base-10 rendering (structural recursion so that concrete
    instances compute in the kernel); `natChars` supplies enough fuel. -/
def natCharsAux : Nat → Nat → List Char
  | 0, _ => []
  | fuel + 1, n =>
    if n < 10 then [digitChar n]
    else natCharsAux fuel (n / 10) ++ [digitChar (n % 10)]

/-- `strconv.AppendUint(_, n, 10)`: base-10 rendering, most significant
    digit first. -/
def natChars (n : Nat) : List Char := natCharsAux (n + 1) n

/-- blang/semver `PRVersion.String`. -/
def prChars : PRVersion → List Char
  | .num n => natChars n
  | .str s => s

/-- Joining identifiers with '.' (the append loops in `Version.String`). -/
def joinDots (parts : List (List Char)) : List Char := List.intercalate ['.'] parts

/-- blang/semver `Version.String()`. -/
def SemVer.toChars (v : SemVer) : List Char :=
  natChars v.major ++ '.' :: natChars v.minor ++ '.' :: natChars v.patch
    ++ (if v.pre = [] then [] else '-' :: joinDots (v.pre.map prChars))
    ++ (if v.build = [] then [] else '+' :: joinDots v.build)

/- ----------------------------------------------------------------- -/
/- manifest.go                                                       -/
/- ----------------------------------------------------------------- -/

/-- manifest.go `Provider`. -/
structure Provider where
  name : String
  url : String
  checksumType : String
  checksum : String
deriving DecidableEq, Repr

/-- manifest.go `Version`: one version string with its providers. -/
structure Version where
  version : String
  providers : List Provider
deriving DecidableEq, Repr

/-- manifest.go `Manifest`. -/
structure Manifest where
  name : String
  versions : List Version
deriving DecidableEq, Repr

/-- manifest.go `const NoVersion = "0.0.0"`. -/
def NoVersion : String := "0.0.0"

/-- The Go zero `semver.Version` (what `latestVersion, _ := semver.Make(s)`
    leaves behind when `Make` errors). -/
def zeroSemVer : SemVer := ⟨0, 0, 0, [], []⟩

/-- The loop body of `Manifest.add`: walk the versions; on an exact version
    string match, report a duplicate provider name or append the provider to
    that entry; otherwise append a fresh `Version` at the end. Returns the
    resulting list and the optional error message. -/
def addVersions (version : String) (provider : Provider) :
    List Version → List Version × Option String
  | [] => ([⟨version, [provider]⟩], none)
  | w :: ws =>
    if w.version = version then
      match List.find? (fun p => p.name = provider.name) w.providers with
      | some p =>
        (w :: ws, some (p.name ++ " box already exists in manifest for version " ++ version))
      | none => ({ w with providers := w.providers ++ [provider] } :: ws, none)
    else
      let r := addVersions version provider ws
      (w :: r.1, r.2)

/-- `Manifest.add` from manifest.go (in-place mutation plus returned `error`,
    modelled as the resulting manifest together with the optional error). -/
def Manifest.add (m : Manifest) (version : String) (provider : Provider) :
    Manifest × Option String :=
  let r := addVersions version provider m.versions
  ({ m with versions := r.1 }, r.2)

/-- The loop body of `Manifest.getLatestVersion`: skip entries that
    `semver.Make` rejects, keep the `LT`-maximum. -/
def latestStep (latest : SemVer) (w : Version) : SemVer :=
  match semverParse w.version.data with
  | none => latest
  | some cur => if SemVer.lt latest cur then cur else latest

/-- `Manifest.getLatestVersion` from manifest.go: fold over the stored
    version strings, starting from `semver.Make(NoVersion)` = `0.0.0`. -/
def Manifest.getLatestVersion (m : Manifest) : String :=
  let init : SemVer :=
    match semverParse NoVersion.data with
    | some v => v
    | none => zeroSemVer
  (m.versions.foldl latestStep init).toChars.asString

/-- `Manifest.getNextVersion` from manifest.go: re-parse `getLatestVersion`,
    `Minor++` (uint64, so modulo `2^64`), `Patch = 0`, render. -/
def Manifest.getNextVersion (m : Manifest) : String :=
  let latest : SemVer :=
    match semverParse m.getLatestVersion.data with
    | some v => v
    | none => zeroSemVer
  SemVer.toChars { latest with minor := (latest.minor + 1) % U64, patch := 0 } |>.asString

/-- post-processor.go `providerFromBuilderName` (the `switch` is an equality
    chain). -/
def providerFromBuilderName (name : String) : String :=
  if name = "aws" then "aws"
  else if name = "digitalocean" then "digitalocean"
  else if name = "virtualbox" then "virtualbox"
  else if name = "vmware" then "vmware_desktop"
  else if name = "parallels" then "parallels"
  else name

/-- Well-formed pre-release identifier values: exactly what `newPRVersion`
    can produce. -/
def prWF : PRVersion → Prop
  | .num n => n < U64
  | .str s => s ≠ [] ∧ s.all isAlphanumChar = true ∧ s.all isNumberChar = false

/-- Well-formed build identifier: what the build loop of `Parse` accepts. -/
def buildWF (b : List Char) : Prop := b ≠ [] ∧ b.all isAlphanumChar = true

/-- The image of `semverParse` (and the zero version): numeric components
    below 2^64, well-formed identifiers. -/
structure SemVerWF (v : SemVer) : Prop where
  major_lt : v.major < U64
  minor_lt : v.minor < U64
  patch_lt : v.patch < U64
  pre_wf : ∀ p ∈ v.pre, prWF p
  build_wf : ∀ b ∈ v.build, buildWF b

/- ----------------------------------------------------------------- -/
/- post-processor.go (goamz variant): the multipart upload loop      -/
/- ----------------------------------------------------------------- -/

/-- goamz `s3.Part` as used by the loop: sequence number `N` and `Size`
    (the ETag plays no role in the claims). The zero value is `⟨0, 0⟩`. -/
structure S3Part where
  n : Nat
  size : Nat
deriving DecidableEq, Repr

/-- Observable actions of the upload code, in order. -/
inductive UEvent where
  | putPart (n : Nat) (offset : Nat) (size : Nat) (ok : Bool)
  | sleep (seconds : Nat)
  | complete (parts : List S3Part)
  | putSingle (size : Nat)
deriving DecidableEq, Repr

inductive UploadResult where
  | completed
  | failed
deriving DecidableEq, Repr

/-- `const chunkSize = 5 * 1024 * 1024`. -/
def chunkSize : Nat := 5 * 1024 * 1024

/-- `totalParts := int(math.Ceil(float64(size) / float64(chunkSize)))`
    (exact for every realistic size; float rounding cannot change the
    ceiling below 2^52 bytes). -/
def totalPartsOf (size : Nat) : Nat := (size + chunkSize - 1) / chunkSize

/-- The `for partNum` loop of the multipart branch of `PostProcess`
    (post-processor.go, goamz variant), with the file modelled by its
    size and current offset:
    `filePos, _ := file.Seek(0, 1)`; `partSize := min(chunkSize, size-filePos)`;
    `file.Read` advances the offset; `multi.PutPart` succeeds iff
    `oracle callIdx` (one fresh index per call); `parts[partNum-1] = part`
    is written before the error check (the zero `Part` on error);
    on error with `errorCount < 10`: `errorCount++`, sleep 5 seconds,
    `file.Seek(filePos, 0)`, `partNum--`; otherwise return the error.
    Structural fuel stands in for the loop's own termination; `multipartUpload`
    supplies enough. Returns (events, final parts array, loop finished). -/
def uploadLoop (size : Nat) (oracle : Nat → Bool) (totalParts : Nat) :
    Nat → Nat → Nat → Nat → Nat → List S3Part → List UEvent × List S3Part × Bool
  | 0, _, _, _, _, parts => ([], parts, false)
  | fuel + 1, partNum, errorCount, callIdx, pos, parts =>
    if partNum ≤ totalParts then
      let filePos := pos
      let partSize := min chunkSize (size - filePos)
      let ok := oracle callIdx
      let part : S3Part := if ok then ⟨partNum, partSize⟩ else ⟨0, 0⟩
      let parts1 := parts.set (partNum - 1) part
      if ok then
        let r := uploadLoop size oracle totalParts fuel (partNum + 1) errorCount
          (callIdx + 1) (filePos + partSize) parts1
        (UEvent.putPart partNum filePos partSize true :: r.1, r.2)
      else
        if errorCount < 10 then
          let r := uploadLoop size oracle totalParts fuel partNum (errorCount + 1)
            (callIdx + 1) filePos parts1
          (UEvent.putPart partNum filePos partSize false :: UEvent.sleep 5 :: r.1, r.2)
        else
          ([UEvent.putPart partNum filePos partSize false], parts1, false)
    else
      ([], parts, true)

/-- The multipart branch of `PostProcess`: `InitMulti` (outcome `initOk`,
    before any part), the loop from `partNum = 1`, `errorCount = 0`, offset 0
    and a zeroed parts array, then the single `multi.Complete(parts)` call
    (outcome `completeOk`) only when the loop finished. -/
def multipartUpload (size : Nat) (oracle : Nat → Bool) (initOk completeOk : Bool) :
    List UEvent × UploadResult :=
  if initOk then
    match uploadLoop size oracle (totalPartsOf size) (totalPartsOf size + 12) 1 0 0 0
        (List.replicate (totalPartsOf size) ⟨0, 0⟩) with
    | (tr, parts, true) =>
      (tr ++ [UEvent.complete parts], if completeOk then .completed else .failed)
    | (tr, _, false) => (tr, .failed)
  else ([], .failed)

/-- The upload step of `PostProcess`: multipart when `size > 100*1024*1024`,
    otherwise a single `PutReader` streaming put (outcome `singleOk`). -/
def uploadStep (size : Nat) (oracle : Nat → Bool) (initOk completeOk singleOk : Bool) :
    List UEvent × UploadResult :=
  if size > 100 * 1024 * 1024 then multipartUpload size oracle initOk completeOk
  else ([UEvent.putSingle size], if singleOk then .completed else .failed)

/-- Is this event a failed PutPart call? -/
def isFailedPut : UEvent → Bool
  | .putPart _ _ _ false => true
  | _ => false

/-- Is this event a PutPart call of part `k`? -/
def isPutOf (k : Nat) : UEvent → Bool
  | .putPart n _ _ _ => n = k
  | _ => false

/-- Is this event a failed PutPart call of part `k`? -/
def isFailedPutOf (k : Nat) : UEvent → Bool
  | .putPart n _ _ false => n = k
  | _ => false

/-- Number of failed PutPart calls in a trace. -/
def failedPutCount (tr : List UEvent) : Nat := (tr.filter isFailedPut).length

/-- Number of failed PutPart calls of part `k` in a trace. -/
def partFailCount (k : Nat) (tr : List UEvent) : Nat := (tr.filter (isFailedPutOf k)).length


/- ----------------------------------------------------------------- -/
/- The publish orchestrator (part_004, aws-sdk variant)              -/
/- ----------------------------------------------------------------- -/

/-- Outcome of the S3 GetObject call for the manifest: a body on success,
    a typed AWS error carrying a code (the `awserr.Error` / `*s3.Error`
    type assertion succeeds), or any other error. -/
inductive FetchResult where
  | ok (body : String)
  | awsError (code : String)
  | otherError (msg : String)
deriving DecidableEq, Repr

/-- `PostProcessor.getManifest`: fetch the manifest object; a typed error
    with code `NoSuchKey` synthesizes `&Manifest{Name: p.config.BoxName}`
    (zero-value `Versions`, i.e. the empty list); every other fetch error
    propagates; on a body, JSON decoding (abstracted as `decode`) either
    yields the manifest or propagates its error. -/
def getManifest (boxName : String) (fetch : FetchResult)
    (decode : String → Except String Manifest) : Except String Manifest :=
  match fetch with
  | .ok body =>
    match decode body with
    | .ok m => .ok m
    | .error e => .error e
  | .awsError code =>
    if code = "NoSuchKey" then .ok ⟨boxName, []⟩ else .error code
  | .otherError msg => .error msg

/-- `PostProcessor.determineVersion`: fetch the manifest and take its
    `getNextVersion`; a fetch error propagates. -/
def determineVersion (boxName : String) (fetch : FetchResult)
    (decode : String → Except String Manifest) : Except String String :=
  match getManifest boxName fetch decode with
  | .error e => .error e
  | .ok m => .ok m.getNextVersion

/-- part_004 `generateS3Url`. -/
def generateS3Url (region bucket cloudFront key : String) : String :=
  if cloudFront ≠ "" then "https://" ++ cloudFront ++ "/" ++ key
  else if region = "us-east-1" then "https://s3.amazonaws.com/" ++ bucket ++ "/" ++ key
  else "https://s3-" ++ region ++ ".amazonaws.com/" ++ bucket ++ "/" ++ key

/-- Go `strings.HasSuffix`. -/
def hasSuffix (s t : String) : Bool :=
  t.data.length ≤ s.data.length && s.data.drop (s.data.length - t.data.length) == t.data

/-- Go `path.Base`: empty path gives `"."`, trailing slashes are stripped,
    the last component is returned, a path of only slashes gives `"/"`. -/
def pathBase (s : String) : String :=
  if s = "" then "."
  else
    let cs := (s.data.reverse.dropWhile (fun c => c = '/')).reverse
    let last := (cs.reverse.takeWhile (fun c => c ≠ '/')).reverse
    if last = [] then "/" else String.mk last

/-- The observable steps of `PostProcessor.PostProcess` (part_004), one per
    successfully completed stage, in the order the code runs them. -/
inductive PEvent where
  | validated
  | statted (size : Nat)
  | versionResolved (version : String)
  | checksummed
  | uploaded
  | fetchedManifest
  | merged
  | manifestPut
deriving DecidableEq, Repr

/-- The configuration fields of `PostProcessor` that `PostProcess` reads. -/
structure PPConfig where
  boxName : String
  boxDir : String
  version : String
  region : String
  bucket : String
  cloudFront : String
  manifestPath : String
  signedExpiry : Nat
deriving DecidableEq, Repr

/-- The environment of one `PostProcess` call: the input artifact and the
    outcome of each external call, in program order. `statResult` is
    `os.Stat` (size on success); `fetchVersion` is the GetObject inside
    `determineVersion`; `checksumResult` is `sum256`; `uploadResult` is
    `uploadBox` (`none` = success); `fetchManifest` is the later GetObject;
    `decode` is JSON decoding; `presignResult` is `Presign` (used only when
    `signedExpiry ≠ 0`); `putResult` is `putManifest` (encode + PutObject). -/
structure PPWorld where
  builderId : String
  artifactId : String
  boxFile : String
  statResult : Except String Nat
  fetchVersion : FetchResult
  checksumResult : Except String String
  uploadResult : Option String
  fetchManifest : FetchResult
  decode : String → Except String Manifest
  presignResult : Except String String
  putResult : Option String

/-- `PostProcessor.PostProcess` (part_004): validate the artifact, stat the
    box, resolve the version (`config.Version`, or `determineVersion` when
    it is empty), checksum, upload the box, fetch the manifest, build the
    box URL, merge via `Manifest.add`, put the manifest, and return the
    manifest URL. Every failure returns immediately with that error.
    The result is the event trace plus the returned artifact URL or error. -/
def postProcess (cfg : PPConfig) (w : PPWorld) : List PEvent × Except String String :=
  if w.builderId ≠ "mitchellh.post-processor.vagrant" ∧ w.builderId ≠ "vagrant" then
    ([], .error ("Unknown artifact type, requires box from vagrant post-processor: "
      ++ w.builderId))
  else if ¬ hasSuffix w.boxFile ".box" then
    ([], .error ("Unknown files in artifact from vagrant post-processor: " ++ w.boxFile))
  else
    match w.statResult with
    | .error e => ([.validated], .error e)
    | .ok size =>
      match (if cfg.version = "" then determineVersion cfg.boxName w.fetchVersion w.decode
             else Except.ok cfg.version) with
      | .error e => ([.validated, .statted size], .error e)
      | .ok version =>
        match w.checksumResult with
        | .error e => ([.validated, .statted size, .versionResolved version], .error e)
        | .ok checksum =>
          match w.uploadResult with
          | some e =>
            ([.validated, .statted size, .versionResolved version, .checksummed], .error e)
          | none =>
            match getManifest cfg.boxName w.fetchManifest w.decode with
            | .error e =>
              ([.validated, .statted size, .versionResolved version, .checksummed,
                .uploaded], .error e)
            | .ok manifest =>
              match (if cfg.signedExpiry = 0 then
                       Except.ok (generateS3Url cfg.region cfg.bucket cfg.cloudFront
                         (cfg.boxDir ++ "/" ++ version ++ "/" ++ pathBase w.boxFile))
                     else w.presignResult) with
              | .error e =>
                ([.validated, .statted size, .versionResolved version, .checksummed,
                  .uploaded, .fetchedManifest], .error e)
              | .ok url =>
                match Manifest.add manifest version
                    ⟨providerFromBuilderName w.artifactId, url, "sha256", checksum⟩ with
                | (_, some e) =>
                  ([.validated, .statted size, .versionResolved version, .checksummed,
                    .uploaded, .fetchedManifest], .error e)
                | (_, none) =>
                  match w.putResult with
                  | some e =>
                    ([.validated, .statted size, .versionResolved version, .checksummed,
                      .uploaded, .fetchedManifest, .merged], .error e)
                  | none =>
                    ([.validated, .statted size, .versionResolved version, .checksummed,
                      .uploaded, .fetchedManifest, .merged, .manifestPut],
                     .ok (generateS3Url cfg.region cfg.bucket cfg.cloudFront
                       cfg.manifestPath))

/-- The full event sequence of a `PostProcess` run in which every stage
    succeeds, with the statted size and resolved version it commits to. -/
def ppFullTrace (size : Nat) (version : String) : List PEvent :=
  [.validated, .statted size, .versionResolved version, .checksummed,
   .uploaded, .fetchedManifest, .merged, .manifestPut]

/- ----------------------------------------------------------------- -/
/- Lemmas and claim theorems                                         -/
/- ----------------------------------------------------------------- -/

theorem digitChar_isNumber {d : Nat} (h : d < 10) : isNumberChar (digitChar d) = true := by
  interval_cases d <;> decide

theorem digitChar_val {d : Nat} (h : d < 10) : (digitChar d).toNat = 48 + d := by
  interval_cases d <;> decide

theorem digitChar_ne_zero {d : Nat} (h : d < 10) (hd : d ≠ 0) : digitChar d ≠ '0' := by
  interval_cases d <;> first | decide | exact absurd rfl hd

theorem isNumberChar_ne_special {c : Char} (h : isNumberChar c = true) :
    c ≠ '.' ∧ c ≠ '-' ∧ c ≠ '+' := by
  refine ⟨fun hc => ?_, fun hc => ?_, fun hc => ?_⟩ <;> subst hc <;> revert h <;> decide

theorem isAlphanumChar_ne_special {c : Char} (h : isAlphanumChar c = true) :
    c ≠ '.' ∧ c ≠ '+' := by
  refine ⟨fun hc => ?_, fun hc => ?_⟩ <;> subst hc <;> revert h <;> decide

theorem digitsVal_append_singleton (xs : List Char) (c : Char) :
    digitsVal (xs ++ [c]) = 10 * digitsVal xs + (c.toNat - 48) := by
  simp [digitsVal, List.foldl_append]

/-- The rendered digits of `n` are digits, nonempty, evaluate back to `n`,
    and do not start with '0' when `n ≥ 1` (given enough fuel). -/
theorem natCharsAux_spec : ∀ fuel n, n < fuel →
    (natCharsAux fuel n).all isNumberChar = true ∧
    natCharsAux fuel n ≠ [] ∧
    digitsVal (natCharsAux fuel n) = n ∧
    (1 ≤ n → (natCharsAux fuel n).head? ≠ some '0') := by
  intro fuel
  induction fuel with
  | zero => intro n h; omega
  | succ fuel ih =>
    intro n h
    by_cases hn : n < 10
    · refine ⟨?_, ?_, ?_, ?_⟩
      · simp [natCharsAux, hn, digitChar_isNumber hn]
      · simp [natCharsAux, hn]
      · simp [natCharsAux, hn, digitsVal, digitChar_val hn]
      · intro h1
        simp only [natCharsAux, hn, if_pos, List.head?_cons]
        intro hc
        exact digitChar_ne_zero hn (by omega) (Option.some_injective _ hc)
    · have hdiv : n / 10 < fuel := by
        have h1 : n / 10 < n := Nat.div_lt_self (by omega) (by omega)
        omega
      obtain ⟨ihall, ihne, ihval, ihhead⟩ := ih (n / 10) hdiv
      have hmod : n % 10 < 10 := Nat.mod_lt n (by omega)
      have heq : natCharsAux (fuel + 1) n
          = natCharsAux fuel (n / 10) ++ [digitChar (n % 10)] := by
        simp [natCharsAux, hn]
      refine ⟨?_, ?_, ?_, ?_⟩
      · rw [heq, List.all_append]
        simp [ihall, digitChar_isNumber hmod]
      · rw [heq]; simp
      · rw [heq, digitsVal_append_singleton, ihval, digitChar_val hmod]
        omega
      · intro _
        rw [heq]
        cases hxs : natCharsAux fuel (n / 10) with
        | nil => exact absurd hxs ihne
        | cons a t =>
          simp only [List.cons_append, List.head?_cons]
          have := ihhead (by omega)
          rw [hxs] at this
          simpa using this

theorem natChars_all (n : Nat) : (natChars n).all isNumberChar = true :=
  (natCharsAux_spec (n + 1) n (by omega)).1

theorem natChars_ne_nil (n : Nat) : natChars n ≠ [] :=
  (natCharsAux_spec (n + 1) n (by omega)).2.1

theorem digitsVal_natChars (n : Nat) : digitsVal (natChars n) = n :=
  (natCharsAux_spec (n + 1) n (by omega)).2.2.1

theorem natChars_no_leading (n : Nat) : hasLeadingZeroes (natChars n) = false := by
  cases hl : natChars n with
  | nil => rfl
  | cons a t =>
    cases t with
    | nil => rfl
    | cons b t2 =>
      have hge : ¬ n < 10 := by
        intro hn
        have : natChars n = [digitChar n] := by simp [natChars, natCharsAux, hn]
        rw [this] at hl
        exact absurd (congrArg List.length hl) (by simp)
      have hhead := (natCharsAux_spec (n + 1) n (by omega)).2.2.2 (by omega)
      have : (natChars n).head? = some a := by rw [hl]; rfl
      have ha : a ≠ '0' := by
        intro hzz
        exact hhead (by rw [show natCharsAux (n + 1) n = natChars n from rfl, this, hzz])
      simp [hasLeadingZeroes, ha]

theorem natChars_not_mem_special (n : Nat) :
    '.' ∉ natChars n ∧ '-' ∉ natChars n ∧ '+' ∉ natChars n := by
  have hall := List.all_eq_true.mp (natChars_all n)
  refine ⟨fun hm => ?_, fun hm => ?_, fun hm => ?_⟩
  · exact (isNumberChar_ne_special (hall _ hm)).1 rfl
  · exact (isNumberChar_ne_special (hall _ hm)).2.1 rfl
  · exact (isNumberChar_ne_special (hall _ hm)).2.2 rfl

theorem parseUint64_natChars {n : Nat} (h : n < U64) :
    parseUint64 (natChars n) = some n := by
  simp [parseUint64, natChars_ne_nil n, natChars_all n, digitsVal_natChars n, h]

theorem parseUint64_lt {s : List Char} {n : Nat} (h : parseUint64 s = some n) : n < U64 := by
  unfold parseUint64 at h
  split_ifs at h
  simp_all

theorem splitFirst_of_not_mem {c : Char} : ∀ {s : List Char}, c ∉ s → splitFirst c s = none := by
  intro s
  induction s with
  | nil => intro _; rfl
  | cons x xs ih =>
    intro h
    have hx : ¬ x = c := fun hh => h (hh ▸ List.mem_cons_self x xs)
    have := ih (fun hh => h (List.mem_cons_of_mem x hh))
    simp [splitFirst, hx, this]

theorem splitFirst_append_cons (c : Char) (a b : List Char) (h : c ∉ a) :
    splitFirst c (a ++ c :: b) = some (a, b) := by
  induction a with
  | nil => simp [splitFirst]
  | cons x xs ih =>
    have hx : ¬ x = c := fun hh => h (hh ▸ List.mem_cons_self x xs)
    have := ih (fun hh => h (List.mem_cons_of_mem x hh))
    simp [splitFirst, hx, this]

theorem mem_joinDots {c : Char} :
    ∀ {parts : List (List Char)}, c ∈ joinDots parts → c = '.' ∨ ∃ part ∈ parts, c ∈ part := by
  intro parts
  induction parts with
  | nil => intro h; simp [joinDots, List.intercalate] at h
  | cons a t ih =>
    intro h
    cases t with
    | nil =>
      simp only [joinDots, List.intercalate, List.intersperse] at h
      right; exact ⟨a, by simp, by simpa using h⟩
    | cons b t2 =>
      have hsplit : joinDots (a :: b :: t2) = a ++ '.' :: joinDots (b :: t2) := by
        simp [joinDots, List.intercalate, List.intersperse]
      rw [hsplit] at h
      rcases List.mem_append.mp h with h | h
      · right; exact ⟨a, by simp, h⟩
      · rcases List.mem_cons.mp h with h | h
        · left; exact h
        · rcases ih h with h | ⟨part, hp, hc⟩
          · left; exact h
          · right; exact ⟨part, List.mem_cons_of_mem a hp, hc⟩

/-- On a duplicate `(version, provider.name)` pair, `addVersions` reports the
    conflict and returns the list unchanged (version strings assumed
    pairwise distinct, which is the manifest data-model invariant). -/
theorem addVersions_duplicate (version : String) (provider : Provider) :
    ∀ vs : List Version, (vs.map Version.version).Nodup →
      (∃ w ∈ vs, w.version = version ∧ ∃ p ∈ w.providers, p.name = provider.name) →
      addVersions version provider vs =
        (vs, some (provider.name ++ " box already exists in manifest for version " ++ version)) := by
  intro vs
  induction vs with
  | nil => intro _ h; simp at h
  | cons w ws ih =>
    intro hnd hex
    simp only [List.map_cons, List.nodup_cons] at hnd
    obtain ⟨w', hw', hver, p, hp, hname⟩ := hex
    by_cases hv : w.version = version
    · have hw'w : w' = w := by
        rcases List.mem_cons.mp hw' with h | h
        · exact h
        · exact absurd (hv ▸ hver ▸ List.mem_map_of_mem Version.version h) hnd.1
      rw [hw'w] at hp
      have hfind : ∃ q, List.find? (fun p => p.name = provider.name) w.providers = some q := by
        have : (List.find? (fun p => p.name = provider.name) w.providers).isSome := by
          rw [List.find?_isSome]
          exact ⟨p, hp, by simp [hname]⟩
        exact Option.isSome_iff_exists.mp this
      obtain ⟨q, hq⟩ := hfind
      have hqname : q.name = provider.name := by
        have := List.find?_some hq
        simpa using this
      simp [addVersions, hv, hq, hqname]
    · have hw'ws : w' ∈ ws := by
        rcases List.mem_cons.mp hw' with h | h
        · exact absurd (h ▸ hver) hv
        · exact h
      have := ih hnd.2 ⟨w', hw'ws, hver, p, hp, hname⟩
      simp [addVersions, hv, this]

/-- On success, `addVersions` leaves the set of version strings unchanged
    (the version was already present) or appends exactly the new one. -/
theorem addVersions_ok_versions (version : String) (provider : Provider) :
    ∀ vs : List Version,
      (addVersions version provider vs).2 = none →
      ((addVersions version provider vs).1.map Version.version = vs.map Version.version ∧
          version ∈ vs.map Version.version) ∨
        ((addVersions version provider vs).1.map Version.version
            = vs.map Version.version ++ [version] ∧
          version ∉ vs.map Version.version) := by
  intro vs
  induction vs with
  | nil => intro _; right; simp [addVersions]
  | cons w ws ih =>
    intro hok
    by_cases hv : w.version = version
    · cases hfind : List.find? (fun p => p.name = provider.name) w.providers with
      | some q => simp [addVersions, hv, hfind] at hok
      | none => left; simp [addVersions, hv, hfind]
    · simp only [addVersions, hv, if_false] at hok ⊢
      rcases ih hok with ⟨h1, h2⟩ | ⟨h1, h2⟩
      · left; simp [h1, h2]
      · right
        constructor
        · simp [h1]
        · simp only [List.map_cons, List.mem_cons]
          rintro (h | h)
          · exact hv h.symm
          · exact h2 h

example : semverParse "1.2.7-rc.1+build5".data =
    some ⟨1, 2, 7, [.num 1].cons (.str "rc".data), ["build5".data]⟩ := by decide
example : semverParse "1.2".data = none := by decide
example : semverParse "01.2.3".data = none := by decide
example : (Manifest.getLatestVersion ⟨"b", [⟨"0.0.1", []⟩, ⟨"0.0.2", []⟩, ⟨"0.1.0", []⟩]⟩) = "0.1.0" := by decide
example : (Manifest.getNextVersion ⟨"b", []⟩) = "0.1.0" := by decide
example : (Manifest.getNextVersion ⟨"b", [⟨"1.2.7", []⟩]⟩) = "1.3.0" := by decide
example : (Manifest.getNextVersion ⟨"b", [⟨"1.2.7-rc.1+build5", []⟩]⟩) = "1.3.0-rc.1+build5" := by decide
example : (Manifest.getLatestVersion ⟨"b", [⟨"0.0.0-alpha", []⟩]⟩) = "0.0.0" := by decide
example : providerFromBuilderName "vmware" = "vmware_desktop" := by decide

/-- On success, the added provider's name is present under the requested
    version string in the resulting list. -/
theorem addVersions_ok_mem (version : String) (provider : Provider) :
    ∀ vs : List Version,
      (addVersions version provider vs).2 = none →
      ∃ w ∈ (addVersions version provider vs).1, w.version = version ∧
        ∃ q ∈ w.providers, q.name = provider.name := by
  intro vs
  induction vs with
  | nil =>
    intro _
    exact ⟨⟨version, [provider]⟩, by simp [addVersions], rfl, provider, by simp, rfl⟩
  | cons w ws ih =>
    intro hok
    by_cases hv : w.version = version
    · cases hfind : List.find? (fun p => p.name = provider.name) w.providers with
      | some q => simp [addVersions, hv, hfind] at hok
      | none =>
        refine ⟨{ w with providers := w.providers ++ [provider] }, ?_, hv, provider, by simp, rfl⟩
        simp [addVersions, hv, hfind]
    · simp only [addVersions, hv, if_false] at hok ⊢
      obtain ⟨w', hw', hrest⟩ := ih hok
      exact ⟨w', List.mem_cons_of_mem w hw', hrest⟩

/-- Successful `addVersions` preserves distinctness of the version strings. -/
theorem addVersions_ok_nodup (version : String) (provider : Provider)
    (vs : List Version) (hnd : (vs.map Version.version).Nodup)
    (hok : (addVersions version provider vs).2 = none) :
    ((addVersions version provider vs).1.map Version.version).Nodup := by
  rcases addVersions_ok_versions version provider vs hok with ⟨h1, _⟩ | ⟨h1, h2⟩
  · rw [h1]; exact hnd
  · rw [h1, List.nodup_append]
    exact ⟨hnd, List.nodup_singleton version, by simpa [List.disjoint_singleton] using h2⟩

/-- C1: adding a `(version, provider)` pair whose provider name already
    exists under that version string fails with the error naming the provider
    and the version and leaves the manifest (all versions and providers)
    unchanged; consequently a second `add` with the same
    `(version, provider.name)` but a different payload fails and leaves the
    manifest exactly as after the first call. Version strings are assumed
    pairwise distinct, the manifest data-model invariant. -/
theorem manifest_add_duplicate_rejected (m : Manifest) (version : String)
    (provider p1 p2 : Provider)
    (hnd : (m.versions.map Version.version).Nodup) :
    ((∃ w ∈ m.versions, w.version = version ∧ ∃ p ∈ w.providers, p.name = provider.name) →
      (m.add version provider).2 =
          some (provider.name ++ " box already exists in manifest for version " ++ version) ∧
        (m.add version provider).1 = m) ∧
    (p2.name = p1.name → (m.add version p1).2 = none →
      (((m.add version p1).1.add version p2).2 =
          some (p2.name ++ " box already exists in manifest for version " ++ version) ∧
        ((m.add version p1).1.add version p2).1 = (m.add version p1).1)) := by
  constructor
  · intro hex
    have h := addVersions_duplicate version provider m.versions hnd hex
    constructor
    · simp [Manifest.add, h]
    · simp [Manifest.add, h]
  · intro hname hok
    have hok' : (addVersions version p1 m.versions).2 = none := hok
    have hnd1 : ((m.add version p1).1.versions.map Version.version).Nodup := by
      simpa [Manifest.add] using addVersions_ok_nodup version p1 m.versions hnd hok'
    have hmem : ∃ w ∈ (m.add version p1).1.versions, w.version = version ∧
        ∃ q ∈ w.providers, q.name = p2.name := by
      obtain ⟨w, hw, hv, q, hq, hqn⟩ := addVersions_ok_mem version p1 m.versions hok'
      exact ⟨w, by simpa [Manifest.add] using hw, hv, q, hq, by rw [hqn, hname]⟩
    have h := addVersions_duplicate version p2 (m.add version p1).1.versions hnd1 hmem
    simp only [Manifest.add] at h
    constructor
    · simp [Manifest.add, h]
    · simp [Manifest.add, h]

/-- Witness for C1 at a concrete manifest: re-adding provider `virtualbox`
    for version `1.0.0` with a different payload fails with the conflict
    message and changes nothing. -/
theorem manifest_add_duplicate_rejected_witness :
    (Manifest.add ⟨"test", [⟨"1.0.0", [⟨"virtualbox", "url1", "sha256", "c1"⟩]⟩]⟩ "1.0.0"
        ⟨"virtualbox", "url2", "sha256", "c2"⟩).2 =
      some "virtualbox box already exists in manifest for version 1.0.0" ∧
    (Manifest.add ⟨"test", [⟨"1.0.0", [⟨"virtualbox", "url1", "sha256", "c1"⟩]⟩]⟩ "1.0.0"
        ⟨"virtualbox", "url2", "sha256", "c2"⟩).1 =
      ⟨"test", [⟨"1.0.0", [⟨"virtualbox", "url1", "sha256", "c1"⟩]⟩]⟩ := by
  have h := (manifest_add_duplicate_rejected
      ⟨"test", [⟨"1.0.0", [⟨"virtualbox", "url1", "sha256", "c1"⟩]⟩]⟩ "1.0.0"
      ⟨"virtualbox", "url2", "sha256", "c2"⟩ ⟨"virtualbox", "url2", "sha256", "c2"⟩
      ⟨"virtualbox", "url2", "sha256", "c2"⟩ (by decide)).1
      ⟨⟨"1.0.0", [⟨"virtualbox", "url1", "sha256", "c1"⟩]⟩, by decide⟩
  exact ⟨h.1, h.2⟩

/-- Collision-free `addVersions` on an unseen version string appends exactly
    one new entry holding exactly the new provider. -/
theorem addVersions_fresh (version : String) (p : Provider) :
    ∀ vs : List Version, (∀ w ∈ vs, w.version ≠ version) →
      addVersions version p vs = (vs ++ [⟨version, [p]⟩], none) := by
  intro vs
  induction vs with
  | nil => intro _; rfl
  | cons w ws ih =>
    intro hall
    have hv : ¬ w.version = version := hall w (List.mem_cons_self w ws)
    have := ih (fun x hx => hall x (List.mem_cons_of_mem w hx))
    simp [addVersions, hv, this]

/-- Collision-free `addVersions` on a present version string appends the
    provider to the first matching entry and leaves every other entry
    untouched. -/
theorem addVersions_found (version : String) (p : Provider) :
    ∀ (l : List Version) (w : Version) (r : List Version),
      w.version = version →
      (∀ x ∈ l, x.version ≠ version) →
      (∀ q ∈ w.providers, q.name ≠ p.name) →
      addVersions version p (l ++ w :: r) =
        (l ++ { w with providers := w.providers ++ [p] } :: r, none) := by
  intro l
  induction l with
  | nil =>
    intro w r hv hl hq
    have hfind : List.find? (fun q => q.name = p.name) w.providers = none := by
      rw [List.find?_eq_none]
      intro q hqmem
      simpa using hq q hqmem
    simp [addVersions, hv, hfind]
  | cons x l ih =>
    intro w r hv hl hq
    have hx : ¬ x.version = version := hl x (List.mem_cons_self x l)
    have := ih w r hv (fun y hy => hl y (List.mem_cons_of_mem x hy)) hq
    simp [addVersions, hx, this]

/-- C5: collision-free `add`: if no entry has the given version string,
    exactly one new `Version` containing exactly the one provider is appended
    at the end; if the (first) entry with that version string has no provider
    of the same name, the provider is appended to that entry's provider
    sequence and every other entry is left unchanged. -/
theorem manifest_add_no_collision (m : Manifest) (version : String) (p : Provider) :
    ((∀ w ∈ m.versions, w.version ≠ version) →
      m.add version p = ({ m with versions := m.versions ++ [⟨version, [p]⟩] }, none)) ∧
    (∀ l w r, m.versions = l ++ w :: r → w.version = version →
      (∀ x ∈ l, x.version ≠ version) →
      (∀ q ∈ w.providers, q.name ≠ p.name) →
      m.add version p =
        ({ m with versions := l ++ { w with providers := w.providers ++ [p] } :: r }, none)) := by
  constructor
  · intro hall
    simp [Manifest.add, addVersions_fresh version p m.versions hall]
  · intro l w r hsplit hv hl hq
    simp [Manifest.add, hsplit, addVersions_found version p l w r hv hl hq]

/-- Witness for C5: a fresh version gets its own entry; an existing version
    gets the provider appended, other data untouched. -/
theorem manifest_add_no_collision_witness :
    Manifest.add ⟨"t", [⟨"0.1.0", [⟨"virtualbox", "u", "sha256", "c"⟩]⟩]⟩ "0.2.0"
        ⟨"vmware_desktop", "u2", "sha256", "c2"⟩ =
      (⟨"t", [⟨"0.1.0", [⟨"virtualbox", "u", "sha256", "c"⟩]⟩,
        ⟨"0.2.0", [⟨"vmware_desktop", "u2", "sha256", "c2"⟩]⟩]⟩, none) ∧
    Manifest.add ⟨"t", [⟨"0.1.0", [⟨"virtualbox", "u", "sha256", "c"⟩]⟩]⟩ "0.1.0"
        ⟨"vmware_desktop", "u2", "sha256", "c2"⟩ =
      (⟨"t", [⟨"0.1.0", [⟨"virtualbox", "u", "sha256", "c"⟩,
        ⟨"vmware_desktop", "u2", "sha256", "c2"⟩]⟩]⟩, none) := by
  constructor
  · exact (manifest_add_no_collision _ "0.2.0" _).1 (by decide)
  · exact (manifest_add_no_collision _ "0.1.0" _).2
      [] ⟨"0.1.0", [⟨"virtualbox", "u", "sha256", "c"⟩]⟩ [] rfl rfl (by decide) (by decide)

/-- C10: the builder-name to provider-name mapping: "vmware" becomes
    "vmware_desktop"; "aws", "digitalocean", "virtualbox" and "parallels" map
    to themselves; every other builder name is used verbatim. -/
theorem providerFromBuilderName_mapping :
    providerFromBuilderName "vmware" = "vmware_desktop" ∧
    providerFromBuilderName "aws" = "aws" ∧
    providerFromBuilderName "digitalocean" = "digitalocean" ∧
    providerFromBuilderName "virtualbox" = "virtualbox" ∧
    providerFromBuilderName "parallels" = "parallels" ∧
    ∀ name : String, name ≠ "vmware" → providerFromBuilderName name = name := by
  refine ⟨rfl, rfl, rfl, rfl, rfl, ?_⟩
  intro name h
  unfold providerFromBuilderName
  split_ifs with h1 h2 h3 h4 <;> simp_all

/-- Witness for C10 on a builder name outside the switch: passed through. -/
theorem providerFromBuilderName_mapping_witness :
    providerFromBuilderName "docker" = "docker" :=
  providerFromBuilderName_mapping.2.2.2.2.2 "docker" (by decide)

theorem isNumberChar_alphanum {c : Char} (h : isNumberChar c = true) :
    isAlphanumChar c = true := by
  simp [isAlphanumChar, h]

theorem all_alphanum_of_all_number {s : List Char} (h : s.all isNumberChar = true) :
    s.all isAlphanumChar = true := by
  rw [List.all_eq_true] at h ⊢
  exact fun c hc => isNumberChar_alphanum (h c hc)

theorem no_special_of_alphanum {s : List Char} (h : s.all isAlphanumChar = true) :
    '.' ∉ s ∧ '+' ∉ s := by
  have hall := List.all_eq_true.mp h
  exact ⟨fun hm => (isAlphanumChar_ne_special (hall _ hm)).1 rfl,
    fun hm => (isAlphanumChar_ne_special (hall _ hm)).2 rfl⟩

theorem prChars_alphanum {p : PRVersion} (wf : prWF p) :
    (prChars p).all isAlphanumChar = true := by
  cases p with
  | num n => exact all_alphanum_of_all_number (natChars_all n)
  | str s => exact wf.2.1

theorem newPRVersion_prChars {p : PRVersion} (wf : prWF p) :
    newPRVersion (prChars p) = some p := by
  cases p with
  | num n =>
    simp [prChars, newPRVersion, natChars_ne_nil n, natChars_all n,
      natChars_no_leading n, parseUint64_natChars (wf : n < U64)]
  | str s =>
    obtain ⟨hne, halpha, hnum⟩ := wf
    simp [prChars, newPRVersion, hne, hnum, halpha]

theorem parsePreList_map_prChars :
    ∀ {ps : List PRVersion}, (∀ p ∈ ps, prWF p) →
      parsePreList (ps.map prChars) = some ps := by
  intro ps
  induction ps with
  | nil => intro _; rfl
  | cons p rest ih =>
    intro hall
    have h1 := newPRVersion_prChars (hall p (List.mem_cons_self p rest))
    have h2 := ih (fun q hq => hall q (List.mem_cons_of_mem p hq))
    simp [parsePreList, h1, h2]

theorem parseBuildList_id :
    ∀ {bs : List (List Char)}, (∀ b ∈ bs, buildWF b) → parseBuildList bs = some bs := by
  intro bs
  induction bs with
  | nil => intro _; rfl
  | cons b rest ih =>
    intro hall
    obtain ⟨hne, halpha⟩ := hall b (List.mem_cons_self b rest)
    have h2 := ih (fun q hq => hall q (List.mem_cons_of_mem b hq))
    simp [parseBuildList, hne, halpha, h2]

theorem splitOn_joinDots {parts : List (List Char)} (hne : parts ≠ [])
    (hnd : ∀ l ∈ parts, '.' ∉ l) : List.splitOn '.' (joinDots parts) = parts := by
  simpa [joinDots] using List.splitOn_intercalate parts '.' hnd hne

theorem newPRVersion_wf {s : List Char} {p : PRVersion} (h : newPRVersion s = some p) :
    prWF p := by
  unfold newPRVersion at h
  split_ifs at h with h1 h2 h3 h4
  · cases hu : parseUint64 s with
    | none => rw [hu] at h; exact absurd h (by simp)
    | some n =>
      rw [hu] at h
      simp only [Option.some.injEq] at h
      subst h
      exact parseUint64_lt hu
  · simp only [Option.some.injEq] at h
    subst h
    exact ⟨h1, h4, by simpa using h2⟩

theorem parsePreList_wf : ∀ {xs : List (List Char)} {ps : List PRVersion},
    parsePreList xs = some ps → ∀ p ∈ ps, prWF p := by
  intro xs
  induction xs with
  | nil =>
    intro ps h p hp
    simp only [parsePreList, Option.some.injEq] at h
    subst h
    simp at hp
  | cons s rest ih =>
    intro ps h p hp
    unfold parsePreList at h
    cases hn : newPRVersion s with
    | none => rw [hn] at h; exact absurd h (by simp)
    | some q =>
      rw [hn] at h
      cases hr : parsePreList rest with
      | none => rw [hr] at h; exact absurd h (by simp)
      | some qs =>
        rw [hr] at h
        simp only [Option.some.injEq] at h
        subst h
        rcases List.mem_cons.mp hp with h | h
        · subst h; exact newPRVersion_wf hn
        · exact ih hr p h

theorem parseBuildList_wf : ∀ {xs bs : List (List Char)},
    parseBuildList xs = some bs → ∀ b ∈ bs, buildWF b := by
  intro xs
  induction xs with
  | nil =>
    intro bs h b hb
    simp only [parseBuildList, Option.some.injEq] at h
    subst h
    simp at hb
  | cons s rest ih =>
    intro bs h b hb
    unfold parseBuildList at h
    split_ifs at h with h1 h2
    cases hr : parseBuildList rest with
    | none => rw [hr] at h; exact absurd h (by simp)
    | some qs =>
      rw [hr] at h
      simp only [Option.some.injEq] at h
      subst h
      rcases List.mem_cons.mp hb with h | h
      · subst h; exact ⟨h1, h2⟩
      · exact ih hr b h

theorem cutBuild_no_plus {x : List Char} (h : '+' ∉ x) : cutBuild x = (x, []) := by
  simp [cutBuild, splitFirst_of_not_mem h]

theorem cutBuild_append {a j : List Char} (h : '+' ∉ a) :
    cutBuild (a ++ '+' :: j) = (a, List.splitOn '.' j) := by
  simp [cutBuild, splitFirst_append_cons '+' a j h]

theorem cutPre_no_dash {x : List Char} (h : '-' ∉ x) : cutPre x = (x, []) := by
  simp [cutPre, splitFirst_of_not_mem h]

theorem cutPre_append {a j : List Char} (h : '-' ∉ a) :
    cutPre (a ++ '-' :: j) = (a, List.splitOn '.' j) := by
  simp [cutPre, splitFirst_append_cons '-' a j h]

theorem if_none_eq_some {α : Type} {c : Prop} [Decidable c] {x : Option α} {v : α}
    (h : (if c then none else x) = some v) : ¬ c ∧ x = some v := by
  by_cases hc : c
  · rw [if_pos hc] at h; exact absurd h (by simp)
  · rw [if_neg hc] at h; exact ⟨hc, h⟩

theorem semverParse_wf {s : List Char} {v : SemVer} (h : semverParse s = some v) :
    SemVerWF v := by
  unfold semverParse at h
  obtain ⟨hs, h⟩ := if_none_eq_some h
  rcases hsp : splitN3Dots s with _ | ⟨p0, _ | ⟨p1, _ | ⟨rest, _ | ⟨x, t⟩⟩⟩⟩
  · rw [hsp] at h; exact Option.noConfusion h
  · rw [hsp] at h; exact Option.noConfusion h
  · rw [hsp] at h; exact Option.noConfusion h
  · rw [hsp] at h
    dsimp only at h
    obtain ⟨hn0, h⟩ := if_none_eq_some h
    obtain ⟨hz0, h⟩ := if_none_eq_some h
    cases h0 : parseUint64 p0 with
    | none => rw [h0] at h; exact Option.noConfusion h
    | some major =>
      rw [h0] at h
      dsimp only at h
      obtain ⟨hn1, h⟩ := if_none_eq_some h
      obtain ⟨hz1, h⟩ := if_none_eq_some h
      cases h1 : parseUint64 p1 with
      | none => rw [h1] at h; exact Option.noConfusion h
      | some minor =>
        rw [h1] at h
        rcases hpb : cutBuild rest with ⟨patchStr1, build⟩
        rw [hpb] at h
        dsimp only at h
        rcases hpp : cutPre patchStr1 with ⟨patchStr, prerelease⟩
        rw [hpp] at h
        dsimp only at h
        obtain ⟨hn2, h⟩ := if_none_eq_some h
        obtain ⟨hz2, h⟩ := if_none_eq_some h
        cases h2 : parseUint64 patchStr with
        | none => rw [h2] at h; exact Option.noConfusion h
        | some patch =>
          rw [h2] at h
          dsimp only at h
          cases h3 : parsePreList prerelease with
          | none => rw [h3] at h; exact Option.noConfusion h
          | some pre =>
            rw [h3] at h
            dsimp only at h
            cases h4 : parseBuildList build with
            | none => rw [h4] at h; exact Option.noConfusion h
            | some buildIds =>
              rw [h4] at h
              have hv := Option.some.inj h
              subst hv
              exact ⟨parseUint64_lt h0, parseUint64_lt h1, parseUint64_lt h2,
                parsePreList_wf h3, parseBuildList_wf h4⟩
  · rw [hsp] at h; exact Option.noConfusion h

theorem mem_map_prChars_alphanum {pre : List PRVersion} (hpre : ∀ p ∈ pre, prWF p)
    {part : List Char} (hpart : part ∈ List.map prChars pre) {c : Char} (hc : c ∈ part) :
    isAlphanumChar c = true := by
  obtain ⟨p, hp, rfl⟩ := List.mem_map.mp hpart
  exact List.all_eq_true.mp (prChars_alphanum (hpre p hp)) c hc

theorem preSeg_no_plus {pre : List PRVersion} (hpre : ∀ p ∈ pre, prWF p) :
    '+' ∉ (if pre = [] then ([] : List Char) else '-' :: joinDots (List.map prChars pre)) := by
  by_cases hp : pre = []
  · simp [hp]
  · rw [if_neg hp]
    intro hmem
    rcases List.mem_cons.mp hmem with h | h
    · exact absurd h (by decide)
    · rcases mem_joinDots h with h | ⟨part, hpart, hcc⟩
      · exact absurd h (by decide)
      · exact (isAlphanumChar_ne_special (mem_map_prChars_alphanum hpre hpart hcc)).2 rfl

theorem cutBuild_seg (pa : Nat) (pre : List PRVersion) (bu : List (List Char))
    (hpre : ∀ p ∈ pre, prWF p) (hbu : ∀ b ∈ bu, buildWF b) :
    cutBuild (natChars pa
        ++ ((if pre = [] then [] else '-' :: joinDots (List.map prChars pre))
          ++ (if bu = [] then [] else '+' :: joinDots bu)))
      = (natChars pa ++ (if pre = [] then [] else '-' :: joinDots (List.map prChars pre)),
          bu) := by
  have hplus : '+' ∉ natChars pa
      ++ (if pre = [] then [] else '-' :: joinDots (List.map prChars pre)) := by
    intro hmem
    rcases List.mem_append.mp hmem with h | h
    · exact (natChars_not_mem_special pa).2.2 h
    · exact preSeg_no_plus hpre h
  by_cases hbuE : bu = []
  · subst hbuE
    rw [if_pos rfl, List.append_nil]
    exact cutBuild_no_plus hplus
  · rw [if_neg hbuE, ← List.append_assoc, cutBuild_append hplus,
      splitOn_joinDots hbuE (fun b hb => (no_special_of_alphanum (hbu b hb).2).1)]

theorem cutPre_seg (pa : Nat) (pre : List PRVersion) (hpre : ∀ p ∈ pre, prWF p) :
    cutPre (natChars pa ++ (if pre = [] then [] else '-' :: joinDots (List.map prChars pre)))
      = (natChars pa, List.map prChars pre) := by
  by_cases hpreE : pre = []
  · subst hpreE
    rw [if_pos rfl, List.append_nil]
    exact cutPre_no_dash (natChars_not_mem_special pa).2.1
  · rw [if_neg hpreE, cutPre_append (natChars_not_mem_special pa).2.1,
      splitOn_joinDots (by simp [hpreE])
        (fun part hpart hdot => absurd (mem_map_prChars_alphanum hpre hpart hdot) (by decide))]

/-- Round trip: rendering a well-formed semantic version and parsing it back
    is the identity (this is what `getNextVersion`'s re-parse of
    `getLatestVersion`'s output relies on). -/
theorem semverParse_toChars {v : SemVer} (wf : SemVerWF v) :
    semverParse v.toChars = some v := by
  obtain ⟨M, mi, pa, pre, bu⟩ := v
  obtain ⟨hM, hmi, hpa, hpre, hbu⟩ := wf
  have hshape : SemVer.toChars ⟨M, mi, pa, pre, bu⟩
      = natChars M ++ '.' :: (natChars mi ++ '.' :: (natChars pa
        ++ ((if pre = [] then [] else '-' :: joinDots (List.map prChars pre))
          ++ (if bu = [] then [] else '+' :: joinDots bu)))) := by
    simp only [SemVer.toChars, List.cons_append, List.append_assoc]
  have hsp : splitN3Dots (SemVer.toChars ⟨M, mi, pa, pre, bu⟩)
      = [natChars M, natChars mi,
         natChars pa ++ ((if pre = [] then [] else '-' :: joinDots (List.map prChars pre))
           ++ (if bu = [] then [] else '+' :: joinDots bu))] := by
    unfold splitN3Dots
    rw [hshape, splitFirst_append_cons '.' (natChars M) _ (natChars_not_mem_special M).1]
    dsimp only
    rw [splitFirst_append_cons '.' (natChars mi) _ (natChars_not_mem_special mi).1]
  have hne : SemVer.toChars ⟨M, mi, pa, pre, bu⟩ ≠ [] := by
    rw [hshape]
    intro hcon
    exact natChars_ne_nil M (List.append_eq_nil.mp hcon).1
  unfold semverParse
  rw [if_neg hne, hsp]
  dsimp only
  rw [if_neg (not_not_intro (natChars_all M)),
    if_neg (show ¬ hasLeadingZeroes (natChars M) = true by simp [natChars_no_leading M]),
    parseUint64_natChars hM]
  dsimp only
  rw [if_neg (not_not_intro (natChars_all mi)),
    if_neg (show ¬ hasLeadingZeroes (natChars mi) = true by simp [natChars_no_leading mi]),
    parseUint64_natChars hmi]
  dsimp only
  rw [cutBuild_seg pa pre bu hpre hbu]
  dsimp only
  rw [cutPre_seg pa pre hpre]
  dsimp only
  rw [if_neg (not_not_intro (natChars_all pa)),
    if_neg (show ¬ hasLeadingZeroes (natChars pa) = true by simp [natChars_no_leading pa]),
    parseUint64_natChars hpa]
  dsimp only
  rw [parsePreList_map_prChars hpre]
  dsimp only
  rw [parseBuildList_id hbu]

theorem charListCompare_vals : ∀ a b : List Char,
    charListCompare a b = -1 ∨ charListCompare a b = 0 ∨ charListCompare a b = 1 := by
  intro a
  induction a with
  | nil => intro b; cases b <;> simp [charListCompare]
  | cons x xs ih =>
    intro b
    cases b with
    | nil => simp [charListCompare]
    | cons y ys =>
      unfold charListCompare
      split_ifs
      · left; rfl
      · right; right; rfl
      · exact ih ys

theorem charListCompare_eq_zero_iff : ∀ a b : List Char, charListCompare a b = 0 ↔ a = b := by
  intro a
  induction a with
  | nil => intro b; cases b <;> simp [charListCompare]
  | cons x xs ih =>
    intro b
    cases b with
    | nil => simp [charListCompare]
    | cons y ys =>
      unfold charListCompare
      split_ifs with h1 h2
      · constructor
        · intro h; exact absurd h (by decide)
        · intro h; injection h with hx hys; subst hx; omega
      · constructor
        · intro h; exact absurd h (by decide)
        · intro h; injection h with hx hys; subst hx; omega
      · have hn : x.toNat = y.toNat := by omega
        have hn2 : x.val.toNat = y.val.toNat := hn
        have hxy : x = y := Char.ext (UInt32.toNat.inj hn2)
        subst hxy
        simp [ih ys]

theorem charListCompare_neg_trans : ∀ {a b c : List Char},
    charListCompare a b = -1 → charListCompare b c = -1 → charListCompare a c = -1 := by
  intro a
  induction a with
  | nil =>
    intro b c h1 h2
    cases c with
    | nil =>
      cases b with
      | nil => simp [charListCompare] at h1
      | cons y ys => simp [charListCompare] at h2
    | cons z zs => simp [charListCompare]
  | cons x xs ih =>
    intro b c h1 h2
    cases b with
    | nil => simp [charListCompare] at h1
    | cons y ys =>
      cases c with
      | nil => simp [charListCompare] at h2
      | cons z zs =>
        unfold charListCompare at h1 h2 ⊢
        split_ifs at h1 h2 ⊢ <;>
          first
          | rfl
          | omega
          | exact ih h1 h2

theorem prCompare_vals : ∀ a b : PRVersion,
    prCompare a b = -1 ∨ prCompare a b = 0 ∨ prCompare a b = 1 := by
  intro a b
  cases a <;> cases b <;> simp only [prCompare] <;>
    first
    | (split_ifs <;> simp)
    | simp

theorem prCompare_eq_zero_iff : ∀ {a b : PRVersion}, prCompare a b = 0 ↔ a = b := by
  intro a b
  cases a with
  | num x =>
    cases b with
    | num y => simp only [prCompare]; split_ifs with h1 h2 <;> simp_all
    | str s => simp [prCompare]
  | str s =>
    cases b with
    | num y => simp [prCompare]
    | str t => simp only [prCompare]; split_ifs with h1 h2 <;> simp_all

theorem prCompare_str_neg {s t : List Char} (h : prCompare (.str s) (.str t) = -1) :
    charListCompare s t = -1 := by
  simp only [prCompare] at h
  split_ifs at h with he hc
  rcases charListCompare_vals s t with hv | hv | hv
  · exact hv
  · exact absurd ((charListCompare_eq_zero_iff s t).mp hv) he
  · exact absurd hv hc

theorem prCompare_neg_trans : ∀ {a b c : PRVersion},
    prCompare a b = -1 → prCompare b c = -1 → prCompare a c = -1 := by
  intro a b c h1 h2
  cases a with
  | num x =>
    cases c with
    | num z =>
      cases b with
      | num y =>
        simp only [prCompare] at h1 h2 ⊢
        split_ifs at h1 h2 ⊢ <;> omega
      | str s => simp [prCompare] at h2
    | str s => simp [prCompare]
  | str s =>
    cases b with
    | num y => simp [prCompare] at h1
    | str t =>
      cases c with
      | num z => simp [prCompare] at h2
      | str u =>
        have hsu := charListCompare_neg_trans (prCompare_str_neg h1) (prCompare_str_neg h2)
        have hne : ¬ s = u := by
          intro he
          have := (charListCompare_eq_zero_iff s u).mpr he
          omega
        have hnot1 : ¬ charListCompare s u = 1 := by omega
        simp [prCompare, hne, hnot1]

theorem preListCompare_vals : ∀ l1 l2 : List PRVersion,
    preListCompare l1 l2 = -1 ∨ preListCompare l1 l2 = 0 ∨ preListCompare l1 l2 = 1 := by
  intro l1
  induction l1 with
  | nil => intro l2; cases l2 <;> simp [preListCompare]
  | cons a as ih =>
    intro l2
    cases l2 with
    | nil => simp [preListCompare]
    | cons b bs =>
      simp only [preListCompare]
      by_cases hab : prCompare a b = 0
      · rw [if_pos hab]; exact ih bs
      · rw [if_neg hab]
        rcases prCompare_vals a b with h | h | h
        · left; exact h
        · exact absurd h hab
        · right; right; exact h

theorem preListCompare_eq_zero_iff : ∀ l1 l2 : List PRVersion,
    preListCompare l1 l2 = 0 ↔ l1 = l2 := by
  intro l1
  induction l1 with
  | nil => intro l2; cases l2 <;> simp [preListCompare]
  | cons a as ih =>
    intro l2
    cases l2 with
    | nil => simp [preListCompare]
    | cons b bs =>
      simp only [preListCompare]
      by_cases hab : prCompare a b = 0
      · have ha : a = b := prCompare_eq_zero_iff.mp hab
        subst ha
        rw [if_pos hab]
        simp [ih bs]
      · rw [if_neg hab]
        constructor
        · intro h; exact absurd h hab
        · intro h
          injection h with h1 h2
          exact absurd (prCompare_eq_zero_iff.mpr h1) hab

theorem preListCompare_self (l : List PRVersion) : preListCompare l l = 0 :=
  (preListCompare_eq_zero_iff l l).mpr rfl

theorem preListCompare_neg_trans : ∀ {l1 l2 l3 : List PRVersion},
    preListCompare l1 l2 = -1 → preListCompare l2 l3 = -1 → preListCompare l1 l3 = -1 := by
  intro l1
  induction l1 with
  | nil =>
    intro l2 l3 h12 h23
    cases l3 with
    | nil =>
      cases l2 with
      | nil => simp [preListCompare] at h12
      | cons b bs => simp [preListCompare] at h23
    | cons c cs => simp [preListCompare]
  | cons a as ih =>
    intro l2 l3 h12 h23
    cases l2 with
    | nil => simp [preListCompare] at h12
    | cons b bs =>
      cases l3 with
      | nil => simp [preListCompare] at h23
      | cons c cs =>
        simp only [preListCompare] at h12 h23 ⊢
        by_cases hab : prCompare a b = 0
        · have hae : a = b := prCompare_eq_zero_iff.mp hab
          rw [if_pos hab] at h12
          by_cases hbc : prCompare b c = 0
          · have hbe : b = c := prCompare_eq_zero_iff.mp hbc
            rw [if_pos hbc] at h23
            have hac : prCompare a c = 0 := by
              rw [hae, hbe]; exact prCompare_eq_zero_iff.mpr rfl
            rw [if_pos hac]
            exact ih h12 h23
          · rw [if_neg hbc] at h23
            have hac : prCompare a c = -1 := by rw [hae]; exact h23
            rw [if_neg (by omega)]
            exact hac
        · rw [if_neg hab] at h12
          by_cases hbc : prCompare b c = 0
          · have hbe : b = c := prCompare_eq_zero_iff.mp hbc
            have hac : prCompare a c = -1 := by rw [← hbe]; exact h12
            rw [if_neg (by omega)]
            exact hac
          · rw [if_neg hbc] at h23
            have hac := prCompare_neg_trans h12 h23
            rw [if_neg (by omega)]
            exact hac

theorem semverCompare_vals (a b : SemVer) :
    semverCompare a b = -1 ∨ semverCompare a b = 0 ∨ semverCompare a b = 1 := by
  unfold semverCompare
  split_ifs <;>
    first
    | (left; rfl)
    | (right; left; rfl)
    | (right; right; rfl)
    | exact preListCompare_vals a.pre b.pre

theorem semverCompare_neg_iff {a b : SemVer} :
    semverCompare a b = -1 ↔
      a.major < b.major ∨ (a.major = b.major ∧ (a.minor < b.minor ∨ (a.minor = b.minor ∧
        (a.patch < b.patch ∨ (a.patch = b.patch ∧ a.pre ≠ [] ∧
          (b.pre = [] ∨ preListCompare a.pre b.pre = -1)))))) := by
  unfold semverCompare
  split_ifs with h1 h2 h3 h4 h5 h6 h7 h8 h9
  · constructor
    · intro h; exact absurd h (by decide)
    · rintro (hc | ⟨hc, _⟩) <;> omega
  · constructor
    · intro _; left; omega
    · intro _; rfl
  · constructor
    · intro h; exact absurd h (by decide)
    · rintro (hc | ⟨_, hc | ⟨hc, _⟩⟩) <;> omega
  · constructor
    · intro _; right; exact ⟨by omega, Or.inl (by omega)⟩
    · intro _; rfl
  · constructor
    · intro h; exact absurd h (by decide)
    · rintro (hc | ⟨_, hc | ⟨_, hc | ⟨hc, _⟩⟩⟩) <;> omega
  · constructor
    · intro _; right; exact ⟨by omega, Or.inr ⟨by omega, Or.inl (by omega)⟩⟩
    · intro _; rfl
  · constructor
    · intro h; exact absurd h (by decide)
    · rintro (hc | ⟨_, hc | ⟨_, hc | ⟨_, hne, _⟩⟩⟩)
      · omega
      · omega
      · omega
      · exact hne h7.1
  · constructor
    · intro h; exact absurd h (by decide)
    · rintro (hc | ⟨_, hc | ⟨_, hc | ⟨_, hne, _⟩⟩⟩)
      · omega
      · omega
      · omega
      · exact hne h8.1
  · constructor
    · intro _
      right
      refine ⟨by omega, ?_⟩
      right
      refine ⟨by omega, ?_⟩
      right
      exact ⟨by omega, h9.1, Or.inl h9.2⟩
    · intro _; rfl
  · have hane : a.pre ≠ [] := by tauto
    have hbne : b.pre ≠ [] := by tauto
    constructor
    · intro h
      right
      refine ⟨by omega, ?_⟩
      right
      refine ⟨by omega, ?_⟩
      right
      exact ⟨by omega, hane, Or.inr h⟩
    · rintro (hc | ⟨_, hc | ⟨_, hc | ⟨_, _, hbe | hplc⟩⟩⟩)
      · omega
      · omega
      · omega
      · exact absurd hbe hbne
      · exact hplc

theorem semverLt_iff {a b : SemVer} : SemVer.lt a b = true ↔ semverCompare a b = -1 := by
  unfold SemVer.lt
  rw [decide_eq_true_eq]
  rcases semverCompare_vals a b with h | h | h <;> rw [h] <;> simp

theorem semverLt_trans {a b c : SemVer} (h1 : SemVer.lt a b = true)
    (h2 : SemVer.lt b c = true) : SemVer.lt a c = true := by
  rw [semverLt_iff, semverCompare_neg_iff] at h1 h2 ⊢
  rcases h1 with h1 | ⟨e1, h1⟩
  · rcases h2 with h2 | ⟨e2, h2⟩
    · left; omega
    · left; omega
  · rcases h2 with h2 | ⟨e2, h2⟩
    · left; omega
    · right
      refine ⟨by omega, ?_⟩
      rcases h1 with h1 | ⟨f1, h1⟩
      · rcases h2 with h2 | ⟨f2, h2⟩
        · left; omega
        · left; omega
      · rcases h2 with h2 | ⟨f2, h2⟩
        · left; omega
        · right
          refine ⟨by omega, ?_⟩
          rcases h1 with h1 | ⟨g1, h1⟩
          · rcases h2 with h2 | ⟨g2, h2⟩
            · left; omega
            · left; omega
          · rcases h2 with h2 | ⟨g2, h2⟩
            · left; omega
            · right
              refine ⟨by omega, h1.1, ?_⟩
              obtain ⟨hane1, hd1⟩ := h1
              obtain ⟨hbne2, hd2⟩ := h2
              rcases hd1 with hbe | hplc1
              · exact absurd hbe hbne2
              · rcases hd2 with hce | hplc2
                · left; exact hce
                · right; exact preListCompare_neg_trans hplc1 hplc2

theorem semverLt_irrefl (v : SemVer) : SemVer.lt v v = false := by
  by_cases h : SemVer.lt v v = true
  · rw [semverLt_iff, semverCompare_neg_iff] at h
    rcases h with h | ⟨_, h | ⟨_, h | ⟨_, hne, hd⟩⟩⟩
    · omega
    · omega
    · omega
    · rcases hd with hbe | hplc
      · exact absurd hbe hne
      · rw [preListCompare_self v.pre] at hplc
        exact absurd hplc (by decide)
  · simpa using h

theorem charListCompare_antisymm : ∀ a b : List Char,
    charListCompare a b = - charListCompare b a := by
  intro a
  induction a with
  | nil => intro b; cases b <;> simp [charListCompare]
  | cons x xs ih =>
    intro b
    cases b with
    | nil => simp [charListCompare]
    | cons y ys =>
      unfold charListCompare
      split_ifs <;> first | omega | exact ih ys

theorem prCompare_str_eq {s t : List Char} (h : ¬ s = t) :
    prCompare (.str s) (.str t) = charListCompare s t := by
  simp only [prCompare]
  rw [if_neg h]
  rcases charListCompare_vals s t with hv | hv | hv
  · rw [if_neg (by omega), hv]
  · exact absurd ((charListCompare_eq_zero_iff s t).mp hv) h
  · rw [if_pos hv, hv]

theorem prCompare_antisymm : ∀ a b : PRVersion, prCompare a b = - prCompare b a := by
  intro a b
  cases a with
  | num x =>
    cases b with
    | num y => simp only [prCompare]; split_ifs <;> omega
    | str t => simp [prCompare]
  | str s =>
    cases b with
    | num y => simp [prCompare]
    | str t =>
      by_cases he : s = t
      · subst he; simp [prCompare]
      · have hne' : ¬ t = s := fun hh => he hh.symm
        rw [prCompare_str_eq he, prCompare_str_eq hne']
        exact charListCompare_antisymm s t

theorem preListCompare_antisymm : ∀ l1 l2 : List PRVersion,
    preListCompare l1 l2 = - preListCompare l2 l1 := by
  intro l1
  induction l1 with
  | nil => intro l2; cases l2 <;> simp [preListCompare]
  | cons a as ih =>
    intro l2
    cases l2 with
    | nil => simp [preListCompare]
    | cons b bs =>
      simp only [preListCompare]
      by_cases hab : prCompare a b = 0
      · have hba : prCompare b a = 0 := by
          have := prCompare_antisymm a b
          omega
        rw [if_pos hab, if_pos hba]
        exact ih bs
      · have hba : ¬ prCompare b a = 0 := by
          have := prCompare_antisymm a b
          omega
        rw [if_neg hab, if_neg hba]
        exact prCompare_antisymm a b

theorem semverCompare_antisymm (a b : SemVer) :
    semverCompare a b = - semverCompare b a := by
  unfold semverCompare
  by_cases h1 : a.major = b.major
  · rw [if_neg (not_not_intro h1), if_neg (not_not_intro h1.symm)]
    by_cases h2 : a.minor = b.minor
    · rw [if_neg (not_not_intro h2), if_neg (not_not_intro h2.symm)]
      by_cases h3 : a.patch = b.patch
      · rw [if_neg (not_not_intro h3), if_neg (not_not_intro h3.symm)]
        by_cases h4 : a.pre = [] <;> by_cases h5 : b.pre = [] <;>
          simp [h4, h5, preListCompare_antisymm a.pre b.pre]
      · have h3' : b.patch ≠ a.patch := fun hh => h3 hh.symm
        rw [if_pos h3, if_pos h3']
        by_cases hgt : a.patch > b.patch
        · rw [if_pos hgt, if_neg (by omega)]
          decide
        · rw [if_neg hgt, if_pos (by omega)]
    · have h2' : b.minor ≠ a.minor := fun hh => h2 hh.symm
      rw [if_pos h2, if_pos h2']
      by_cases hgt : a.minor > b.minor
      · rw [if_pos hgt, if_neg (by omega)]
        decide
      · rw [if_neg hgt, if_pos (by omega)]
  · have h1' : b.major ≠ a.major := fun hh => h1 hh.symm
    rw [if_pos h1, if_pos h1']
    by_cases hgt : a.major > b.major
    · rw [if_pos hgt, if_neg (by omega)]
      decide
    · rw [if_neg hgt, if_pos (by omega)]

theorem semverLt_total_helper {x y : SemVer} (h : SemVer.lt x y = false) :
    semverCompare x y = 0 ∨ semverCompare y x = -1 := by
  have hv := semverCompare_vals x y
  have hanti := semverCompare_antisymm x y
  have hnot : ¬ semverCompare x y < 0 := of_decide_eq_false h
  rcases hv with hv | hv | hv
  · omega
  · left; exact hv
  · right; omega

theorem semverCompare_zero_parts {x y : SemVer} (h : semverCompare x y = 0) :
    x.major = y.major ∧ x.minor = y.minor ∧ x.patch = y.patch ∧ x.pre = y.pre := by
  unfold semverCompare at h
  split_ifs at h with h1 h2 h3 h4 h5 h6 h7 h8 h9
  · exact absurd h (by decide)
  · exact absurd h (by decide)
  · exact absurd h (by decide)
  · exact ⟨not_not.mp h1, not_not.mp h3, not_not.mp h5, h7.1.trans h7.2.symm⟩
  · exact absurd h (by decide)
  · exact ⟨not_not.mp h1, not_not.mp h3, not_not.mp h5,
      (preListCompare_eq_zero_iff x.pre y.pre).mp h⟩

theorem semverCompare_congr_right {z x y : SemVer}
    (hmaj : x.major = y.major) (hmin : x.minor = y.minor) (hpat : x.patch = y.patch)
    (hpre : x.pre = y.pre) : semverCompare z x = semverCompare z y := by
  unfold semverCompare
  rw [hmaj, hmin, hpat, hpre]

theorem semverLt_asymm {a b : SemVer} (h : SemVer.lt a b = true) :
    SemVer.lt b a = false := by
  rw [semverLt_iff] at h
  have hanti := semverCompare_antisymm a b
  by_contra hcon
  have h2 : SemVer.lt b a = true := by simpa using hcon
  rw [semverLt_iff] at h2
  omega

theorem semverNotLt_trans {a b c : SemVer} (h1 : SemVer.lt a b = false)
    (h2 : SemVer.lt b c = false) : SemVer.lt a c = false := by
  by_contra hcon
  have hac : SemVer.lt a c = true := by simpa using hcon
  rcases semverLt_total_helper h2 with hbc0 | hcb
  · obtain ⟨p1, p2, p3, p4⟩ := semverCompare_zero_parts hbc0
    have hcongr : semverCompare a b = semverCompare a c :=
      semverCompare_congr_right p1 p2 p3 p4
    rw [semverLt_iff] at hac
    have : SemVer.lt a b = true := by
      rw [semverLt_iff, hcongr]
      exact hac
    rw [this] at h1
    exact Bool.noConfusion h1
  · have hcb' : SemVer.lt c b = true := by rw [semverLt_iff]; exact hcb
    have : SemVer.lt a b = true := semverLt_trans hac hcb'
    rw [this] at h1
    exact Bool.noConfusion h1

theorem parseNoVersion : semverParse NoVersion.data = some zeroSemVer := by decide

theorem zeroSemVer_wf : SemVerWF zeroSemVer :=
  ⟨by norm_num [zeroSemVer, U64], by norm_num [zeroSemVer, U64],
    by norm_num [zeroSemVer, U64], by simp [zeroSemVer], by simp [zeroSemVer]⟩

theorem latestStep_wf {latest : SemVer} (h : SemVerWF latest) (w : Version) :
    SemVerWF (latestStep latest w) := by
  unfold latestStep
  cases hp : semverParse w.version.data with
  | none => exact h
  | some cur =>
    dsimp only
    split_ifs with hlt
    · exact semverParse_wf hp
    · exact h

theorem foldl_latestStep_wf : ∀ (vs : List Version) (init : SemVer), SemVerWF init →
    SemVerWF (vs.foldl latestStep init) := by
  intro vs
  induction vs with
  | nil => intro init h; exact h
  | cons w ws ih => intro init h; exact ih _ (latestStep_wf h w)

theorem foldl_latestStep_provenance : ∀ (vs : List Version) (init : SemVer),
    vs.foldl latestStep init = init ∨
      ∃ w ∈ vs, semverParse w.version.data = some (vs.foldl latestStep init) := by
  intro vs
  induction vs with
  | nil => intro init; left; rfl
  | cons w ws ih =>
    intro init
    have hfold : (w :: ws).foldl latestStep init = ws.foldl latestStep (latestStep init w) := rfl
    rcases ih (latestStep init w) with heq | ⟨w', hw', hp⟩
    · rw [hfold, heq]
      cases hp : semverParse w.version.data with
      | none =>
        left
        unfold latestStep
        rw [hp]
      | some cur =>
        by_cases hlt : SemVer.lt init cur = true
        · right
          refine ⟨w, List.mem_cons_self w ws, ?_⟩
          rw [hp]
          congr 1
          unfold latestStep
          rw [hp]
          dsimp only
          rw [if_pos hlt]
        · left
          unfold latestStep
          rw [hp]
          dsimp only
          rw [if_neg hlt]
    · right
      exact ⟨w', List.mem_cons_of_mem w hw', by rw [hfold]; exact hp⟩

theorem foldl_latestStep_ub : ∀ (vs : List Version) (init : SemVer),
    SemVer.lt (vs.foldl latestStep init) init = false ∧
    ∀ w ∈ vs, ∀ cur, semverParse w.version.data = some cur →
      SemVer.lt (vs.foldl latestStep init) cur = false := by
  intro vs
  induction vs with
  | nil =>
    intro init
    exact ⟨semverLt_irrefl init, by simp⟩
  | cons w ws ih =>
    intro init
    obtain ⟨ih1, ih2⟩ := ih (latestStep init w)
    have hfold : (w :: ws).foldl latestStep init = ws.foldl latestStep (latestStep init w) := rfl
    have hstep : SemVer.lt (latestStep init w) init = false := by
      unfold latestStep
      cases hp : semverParse w.version.data with
      | none => exact semverLt_irrefl init
      | some cur =>
        dsimp only
        by_cases hlt : SemVer.lt init cur = true
        · rw [if_pos hlt]
          exact semverLt_asymm hlt
        · rw [if_neg hlt]
          exact semverLt_irrefl init
    refine ⟨?_, ?_⟩
    · rw [hfold]
      exact semverNotLt_trans ih1 hstep
    · intro x hx cur hp
      rcases List.mem_cons.mp hx with hxw | hxws
      · subst hxw
        have hstep2 : SemVer.lt (latestStep init x) cur = false := by
          unfold latestStep
          rw [hp]
          dsimp only
          by_cases hlt : SemVer.lt init cur = true
          · rw [if_pos hlt]
            exact semverLt_irrefl cur
          · rw [if_neg hlt]
            exact Bool.eq_false_iff.mpr hlt
        rw [hfold]
        exact semverNotLt_trans ih1 hstep2
      · rw [hfold]
        exact ih2 x hxws cur hp

/-- Structure of `getLatestVersion`: it renders a well-formed version `L`
    that is `0.0.0` or one of the successfully parsed entries, is never
    `LT`-below `0.0.0` or any parsed entry, and re-parses to `L`. -/
theorem getLatestVersion_spec (m : Manifest) :
    ∃ L : SemVer, SemVerWF L ∧
      m.getLatestVersion = L.toChars.asString ∧
      semverParse m.getLatestVersion.data = some L ∧
      (L = zeroSemVer ∨ ∃ w ∈ m.versions, semverParse w.version.data = some L) ∧
      SemVer.lt L zeroSemVer = false ∧
      (∀ w ∈ m.versions, ∀ cur, semverParse w.version.data = some cur →
        SemVer.lt L cur = false) := by
  have hinit : (match semverParse NoVersion.data with
      | some v => v
      | none => zeroSemVer) = zeroSemVer := by
    rw [parseNoVersion]
  have hren : m.getLatestVersion
      = (m.versions.foldl latestStep zeroSemVer).toChars.asString := by
    unfold Manifest.getLatestVersion
    rw [hinit]
  have hwf : SemVerWF (m.versions.foldl latestStep zeroSemVer) :=
    foldl_latestStep_wf m.versions zeroSemVer zeroSemVer_wf
  refine ⟨m.versions.foldl latestStep zeroSemVer, hwf, hren, ?_, ?_, ?_, ?_⟩
  · rw [hren]
    exact semverParse_toChars hwf
  · exact foldl_latestStep_provenance m.versions zeroSemVer
  · exact (foldl_latestStep_ub m.versions zeroSemVer).1
  · exact (foldl_latestStep_ub m.versions zeroSemVer).2

/-- Structure of `getNextVersion`: it renders the parsed `getLatestVersion`
    with the minor bumped modulo 2^64, the patch zeroed, and the major,
    pre-release and build parts untouched. -/
theorem getNextVersion_spec (m : Manifest) :
    ∃ L : SemVer, semverParse m.getLatestVersion.data = some L ∧
      m.getNextVersion
        = (SemVer.toChars ⟨L.major, (L.minor + 1) % U64, 0, L.pre, L.build⟩).asString := by
  obtain ⟨L, hwf, hren, hparse, _⟩ := getLatestVersion_spec m
  refine ⟨L, hparse, ?_⟩
  unfold Manifest.getNextVersion
  rw [hparse]

/-- Counterexample to C2 as stated: at minor = 2^64 - 1 (the uint64 maximum,
    which `semver.Make` accepts) the `Minor++` increment wraps, so
    nextVersion's minor component is 0, not latestVersion's minor plus one. -/
theorem getNextVersion_overflow_counterexample :
    Manifest.getLatestVersion ⟨"b", [⟨"0.18446744073709551615.0", []⟩]⟩
      = "0.18446744073709551615.0" ∧
    Manifest.getNextVersion ⟨"b", [⟨"0.18446744073709551615.0", []⟩]⟩ = "0.0.0" ∧
    semverParse ("0.18446744073709551615.0".data)
      = some ⟨0, 18446744073709551615, 0, [], []⟩ ∧
    semverParse ("0.0.0".data) = some ⟨0, 0, 0, [], []⟩ ∧
    (0 : Nat) ≠ 18446744073709551615 + 1 := by
  exact ⟨by decide, by decide, by decide, by decide, by decide⟩

/-- C2 (amended): nextVersion() equals latestVersion() with the minor
    component incremented by one modulo 2^64 (uint64 wrap-around), the patch
    component reset to zero, and everything else (major included) preserved;
    on no versions it returns 0.1.0, on {0.0.1, 0.0.2} it returns 0.1.0, on
    {1.2.7} it returns 1.3.0, and version strings that fail to parse are
    ignored by the computation. -/
theorem getNextVersion_bumps_minor (m : Manifest) :
    (∃ L : SemVer, semverParse m.getLatestVersion.data = some L ∧
      m.getNextVersion
        = (SemVer.toChars ⟨L.major, (L.minor + 1) % U64, 0, L.pre, L.build⟩).asString) ∧
    Manifest.getNextVersion ⟨"b", []⟩ = "0.1.0" ∧
    Manifest.getNextVersion ⟨"b", [⟨"0.0.1", []⟩, ⟨"0.0.2", []⟩]⟩ = "0.1.0" ∧
    Manifest.getNextVersion ⟨"b", [⟨"1.2.7", []⟩]⟩ = "1.3.0" ∧
    Manifest.getNextVersion ⟨"b", [⟨"not-a-version", []⟩, ⟨"1.2.7", []⟩]⟩ = "1.3.0" := by
  exact ⟨getNextVersion_spec m, by decide, by decide, by decide, by decide⟩

/-- Counterexample to C9: the pre-release and build metadata of the latest
    version are NOT dropped by nextVersion: on {1.2.7-rc.1+build5} it
    returns 1.3.0-rc.1+build5, which still parses with a nonempty
    pre-release list and build list. -/
theorem getNextVersion_metadata_counterexample :
    Manifest.getNextVersion ⟨"b", [⟨"1.2.7-rc.1+build5", []⟩]⟩ = "1.3.0-rc.1+build5" ∧
    semverParse ("1.3.0-rc.1+build5".data)
      = some ⟨1, 3, 0, [.str "rc".data, .num 1], ["build5".data]⟩ ∧
    [PRVersion.str "rc".data, .num 1] ≠ ([] : List PRVersion) := by
  exact ⟨by decide, by decide, by decide⟩

/-- C9 (amended): when the parsed latestVersion carries pre-release or build
    metadata, nextVersion carries exactly that metadata over into its result
    (after the bumped minor and zeroed patch), and the result differs from
    the metadata-free rendering: the metadata is preserved, not dropped. -/
theorem getNextVersion_keeps_metadata (m : Manifest) (L : SemVer)
    (hL : semverParse m.getLatestVersion.data = some L)
    (hmeta : L.pre ≠ [] ∨ L.build ≠ []) :
    m.getNextVersion
      = (SemVer.toChars ⟨L.major, (L.minor + 1) % U64, 0, L.pre, L.build⟩).asString ∧
    (SemVer.toChars ⟨L.major, (L.minor + 1) % U64, 0, L.pre, L.build⟩).asString
      ≠ (SemVer.toChars ⟨L.major, (L.minor + 1) % U64, 0, [], []⟩).asString := by
  obtain ⟨L', hL', hnext⟩ := getNextVersion_spec m
  rw [hL] at hL'
  have hLL : L' = L := by injection hL'.symm
  subst hLL
  refine ⟨hnext, ?_⟩
  intro hcon
  have hwf : SemVerWF L' := semverParse_wf hL
  have hwf1 : SemVerWF ⟨L'.major, (L'.minor + 1) % U64, 0, L'.pre, L'.build⟩ :=
    ⟨hwf.major_lt, Nat.mod_lt _ (by norm_num [U64]), by norm_num [U64],
      hwf.pre_wf, hwf.build_wf⟩
  have hwf2 : SemVerWF ⟨L'.major, (L'.minor + 1) % U64, 0, [], []⟩ :=
    ⟨hwf.major_lt, Nat.mod_lt _ (by norm_num [U64]), by norm_num [U64],
      by simp, by simp⟩
  have hdata : SemVer.toChars ⟨L'.major, (L'.minor + 1) % U64, 0, L'.pre, L'.build⟩
      = SemVer.toChars ⟨L'.major, (L'.minor + 1) % U64, 0, [], []⟩ :=
    congrArg String.data hcon
  have h1 := semverParse_toChars hwf1
  have h2 := semverParse_toChars hwf2
  rw [hdata] at h1
  have heq : (⟨L'.major, (L'.minor + 1) % U64, 0, L'.pre, L'.build⟩ : SemVer)
      = ⟨L'.major, (L'.minor + 1) % U64, 0, [], []⟩ :=
    Option.some.inj (h1.symm.trans h2)
  rcases hmeta with hm | hm
  · exact hm (congrArg SemVer.pre heq)
  · exact hm (congrArg SemVer.build heq)

/-- Witness for C9 (amended) on {1.2.7-rc.1+build5}. -/
theorem getNextVersion_keeps_metadata_witness :
    Manifest.getNextVersion ⟨"b", [⟨"1.2.7-rc.1+build5", []⟩]⟩
      = (SemVer.toChars ⟨1, (2 + 1) % U64, 0, [.str "rc".data, .num 1],
          ["build5".data]⟩).asString ∧
    (SemVer.toChars ⟨1, (2 + 1) % U64, 0, [.str "rc".data, .num 1],
        ["build5".data]⟩).asString
      ≠ (SemVer.toChars ⟨1, (2 + 1) % U64, 0, [], []⟩).asString :=
  getNextVersion_keeps_metadata ⟨"b", [⟨"1.2.7-rc.1+build5", []⟩]⟩
    ⟨1, 2, 7, [.str "rc".data, .num 1], ["build5".data]⟩ (by decide) (by decide)

/-- Counterexample to C6 as stated: on {0.0.0-alpha} every stored entry
    parses, the maximum of the parsed entries is 0.0.0-alpha, yet
    latestVersion returns 0.0.0 — a value that is not among the entries:
    the initial 0.0.0 floor takes part in the maximum. -/
theorem getLatestVersion_counterexample :
    Manifest.getLatestVersion ⟨"b", [⟨"0.0.0-alpha", []⟩]⟩ = "0.0.0" ∧
    semverParse ("0.0.0-alpha".data) = some ⟨0, 0, 0, [.str "alpha".data], []⟩ ∧
    "0.0.0" ≠ "0.0.0-alpha" := by
  exact ⟨by decide, by decide, by decide⟩

/-- C6 (amended): latestVersion parses every stored entry, skips (without
    failing) entries that do not parse, and returns the rendering of a
    well-formed version that is the maximum — never LT-below 0.0.0 or any
    parsed entry — of the parsed entries TOGETHER WITH the 0.0.0 floor (it
    is 0.0.0 or one of the parsed entries); build metadata is ignored by the
    ordering; over {0.0.1, 0.0.2, 0.1.0} it returns 0.1.0. -/
theorem getLatestVersion_max (m : Manifest) :
    (∃ L : SemVer, SemVerWF L ∧ m.getLatestVersion = L.toChars.asString ∧
      (L = zeroSemVer ∨ ∃ w ∈ m.versions, semverParse w.version.data = some L) ∧
      SemVer.lt L zeroSemVer = false ∧
      (∀ w ∈ m.versions, ∀ cur, semverParse w.version.data = some cur →
        SemVer.lt L cur = false)) ∧
    (∀ (v o : SemVer) (bu1 bu2 : List (List Char)),
      semverCompare { v with build := bu1 } { o with build := bu2 } = semverCompare v o) ∧
    Manifest.getLatestVersion ⟨m.name, [⟨"0.0.1", []⟩, ⟨"0.0.2", []⟩, ⟨"0.1.0", []⟩]⟩
      = "0.1.0" := by
  refine ⟨?_, fun v o bu1 bu2 => rfl, rfl⟩
  obtain ⟨L, hwf, hren, _, hprov, hub0, hub⟩ := getLatestVersion_spec m
  exact ⟨L, hwf, hren, hprov, hub0, hub⟩

theorem uploadLoop_succ_ok {size : Nat} {oracle : Nat → Bool} {totalParts fuel partNum
    errorCount callIdx pos : Nat} {parts : List S3Part}
    (hle : partNum ≤ totalParts) (hok : oracle callIdx = true) :
    uploadLoop size oracle totalParts (fuel + 1) partNum errorCount callIdx pos parts
      = (UEvent.putPart partNum pos (min chunkSize (size - pos)) true ::
          (uploadLoop size oracle totalParts fuel (partNum + 1) errorCount (callIdx + 1)
            (pos + min chunkSize (size - pos))
            (parts.set (partNum - 1) ⟨partNum, min chunkSize (size - pos)⟩)).1,
         (uploadLoop size oracle totalParts fuel (partNum + 1) errorCount (callIdx + 1)
            (pos + min chunkSize (size - pos))
            (parts.set (partNum - 1) ⟨partNum, min chunkSize (size - pos)⟩)).2) := by
  simp [uploadLoop, hle, hok]

theorem uploadLoop_succ_retry {size : Nat} {oracle : Nat → Bool} {totalParts fuel partNum
    errorCount callIdx pos : Nat} {parts : List S3Part}
    (hle : partNum ≤ totalParts) (hok : oracle callIdx = false)
    (herr : errorCount < 10) :
    uploadLoop size oracle totalParts (fuel + 1) partNum errorCount callIdx pos parts
      = (UEvent.putPart partNum pos (min chunkSize (size - pos)) false :: UEvent.sleep 5 ::
          (uploadLoop size oracle totalParts fuel partNum (errorCount + 1) (callIdx + 1)
            pos (parts.set (partNum - 1) ⟨0, 0⟩)).1,
         (uploadLoop size oracle totalParts fuel partNum (errorCount + 1) (callIdx + 1)
            pos (parts.set (partNum - 1) ⟨0, 0⟩)).2) := by
  simp [uploadLoop, hle, hok, herr]

theorem uploadLoop_succ_fatal {size : Nat} {oracle : Nat → Bool} {totalParts fuel partNum
    errorCount callIdx pos : Nat} {parts : List S3Part}
    (hle : partNum ≤ totalParts) (hok : oracle callIdx = false)
    (herr : ¬ errorCount < 10) :
    uploadLoop size oracle totalParts (fuel + 1) partNum errorCount callIdx pos parts
      = ([UEvent.putPart partNum pos (min chunkSize (size - pos)) false],
         parts.set (partNum - 1) ⟨0, 0⟩, false) := by
  simp [uploadLoop, hle, hok, herr]

theorem uploadLoop_succ_exit {size : Nat} {oracle : Nat → Bool} {totalParts fuel partNum
    errorCount callIdx pos : Nat} {parts : List S3Part}
    (hle : ¬ partNum ≤ totalParts) :
    uploadLoop size oracle totalParts (fuel + 1) partNum errorCount callIdx pos parts
      = ([], parts, true) := by
  simp [uploadLoop, hle]

theorem uploadLoop_putPart_events (size : Nat) (oracle : Nat → Bool) :
    ∀ (fuel partNum errorCount callIdx pos : Nat) (parts : List S3Part),
      1 ≤ partNum →
      (partNum ≤ totalPartsOf size → pos = (partNum - 1) * chunkSize) →
      ∀ k o sz ok, UEvent.putPart k o sz ok ∈
          (uploadLoop size oracle (totalPartsOf size) fuel partNum errorCount callIdx pos parts).1 →
        1 ≤ k ∧ k ≤ totalPartsOf size ∧ o = (k - 1) * chunkSize ∧
          sz = min chunkSize (size - o) := by
  intro fuel
  induction fuel with
  | zero =>
    intro partNum errorCount callIdx pos parts h1 hinv k o sz ok hmem
    simp [uploadLoop] at hmem
  | succ fuel ih =>
    intro partNum errorCount callIdx pos parts h1 hinv k o sz ok hmem
    by_cases hle : partNum ≤ totalPartsOf size
    · have hpos := hinv hle
      by_cases hok : oracle callIdx = true
      · rw [uploadLoop_succ_ok hle hok] at hmem
        rcases List.mem_cons.mp hmem with he | he
        · injection he with e1 e2 e3 e4
          subst e1; subst e2; subst e3
          exact ⟨h1, hle, hpos, rfl⟩
        · refine ih (partNum + 1) errorCount (callIdx + 1)
            (pos + min chunkSize (size - pos))
            (parts.set (partNum - 1) ⟨partNum, min chunkSize (size - pos)⟩)
            (by omega) ?_ k o sz ok he
          intro hle2
          rw [hpos]
          simp only [chunkSize, totalPartsOf] at *
          omega
      · have hokf : oracle callIdx = false := by
          cases hcase : oracle callIdx
          · rfl
          · exact absurd hcase hok
        by_cases herr : errorCount < 10
        · rw [uploadLoop_succ_retry hle hokf herr] at hmem
          rcases List.mem_cons.mp hmem with he | hmem2
          · injection he with e1 e2 e3 e4
            subst e1; subst e2; subst e3
            exact ⟨h1, hle, hpos, rfl⟩
          · rcases List.mem_cons.mp hmem2 with he | he
            · exact absurd he (by simp)
            · exact ih partNum (errorCount + 1) (callIdx + 1) pos
                (parts.set (partNum - 1) ⟨0, 0⟩) h1 hinv k o sz ok he
        · rw [uploadLoop_succ_fatal hle hokf herr] at hmem
          rcases List.mem_cons.mp hmem with he | he
          · injection he with e1 e2 e3 e4
            subst e1; subst e2; subst e3
            exact ⟨h1, hle, hpos, rfl⟩
          · simp at he
    · rw [uploadLoop_succ_exit hle] at hmem
      simp at hmem

theorem uploadLoop_sleep_events (size : Nat) (oracle : Nat → Bool) (totalParts : Nat) :
    ∀ (fuel partNum errorCount callIdx pos : Nat) (parts : List S3Part),
      ∀ s, UEvent.sleep s ∈
          (uploadLoop size oracle totalParts fuel partNum errorCount callIdx pos parts).1 →
        s = 5 := by
  intro fuel
  induction fuel with
  | zero =>
    intro partNum errorCount callIdx pos parts s hmem
    simp [uploadLoop] at hmem
  | succ fuel ih =>
    intro partNum errorCount callIdx pos parts s hmem
    by_cases hle : partNum ≤ totalParts
    · by_cases hok : oracle callIdx = true
      · rw [uploadLoop_succ_ok hle hok] at hmem
        rcases List.mem_cons.mp hmem with he | he
        · exact absurd he (by simp)
        · exact ih _ _ _ _ _ s he
      · have hokf : oracle callIdx = false := by
          cases hcase : oracle callIdx
          · rfl
          · exact absurd hcase hok
        by_cases herr : errorCount < 10
        · rw [uploadLoop_succ_retry hle hokf herr] at hmem
          rcases List.mem_cons.mp hmem with he | hmem2
          · exact absurd he (by simp)
          · rcases List.mem_cons.mp hmem2 with he | he
            · simp only [UEvent.sleep.injEq] at he
              exact he
            · exact ih _ _ _ _ _ s he
        · rw [uploadLoop_succ_fatal hle hokf herr] at hmem
          rcases List.mem_cons.mp hmem with he | he
          · exact absurd he (by simp)
          · simp at he
    · rw [uploadLoop_succ_exit hle] at hmem
      simp at hmem

theorem uploadLoop_no_complete (size : Nat) (oracle : Nat → Bool) (totalParts : Nat) :
    ∀ (fuel partNum errorCount callIdx pos : Nat) (parts : List S3Part),
      ∀ ps, UEvent.complete ps ∉
          (uploadLoop size oracle totalParts fuel partNum errorCount callIdx pos parts).1 := by
  intro fuel
  induction fuel with
  | zero =>
    intro partNum errorCount callIdx pos parts ps hmem
    simp [uploadLoop] at hmem
  | succ fuel ih =>
    intro partNum errorCount callIdx pos parts ps hmem
    by_cases hle : partNum ≤ totalParts
    · by_cases hok : oracle callIdx = true
      · rw [uploadLoop_succ_ok hle hok] at hmem
        rcases List.mem_cons.mp hmem with he | he
        · exact absurd he (by simp)
        · exact ih _ _ _ _ _ ps he
      · have hokf : oracle callIdx = false := by
          cases hcase : oracle callIdx
          · rfl
          · exact absurd hcase hok
        by_cases herr : errorCount < 10
        · rw [uploadLoop_succ_retry hle hokf herr] at hmem
          rcases List.mem_cons.mp hmem with he | hmem2
          · exact absurd he (by simp)
          · rcases List.mem_cons.mp hmem2 with he | he
            · exact absurd he (by simp)
            · exact ih _ _ _ _ _ ps he
        · rw [uploadLoop_succ_fatal hle hokf herr] at hmem
          rcases List.mem_cons.mp hmem with he | he
          · exact absurd he (by simp)
          · simp at he
    · rw [uploadLoop_succ_exit hle] at hmem
      simp at hmem

theorem uploadLoop_ok_fail_bound (size : Nat) (oracle : Nat → Bool) (totalParts : Nat) :
    ∀ (fuel partNum errorCount callIdx pos : Nat) (parts : List S3Part),
      errorCount ≤ 10 →
      (uploadLoop size oracle totalParts fuel partNum errorCount callIdx pos parts).2.2 = true →
      failedPutCount
          (uploadLoop size oracle totalParts fuel partNum errorCount callIdx pos parts).1
        + errorCount ≤ 10 := by
  intro fuel
  induction fuel with
  | zero =>
    intro partNum errorCount callIdx pos parts hec hok2
    simp [uploadLoop] at hok2
  | succ fuel ih =>
    intro partNum errorCount callIdx pos parts hec hres
    by_cases hle : partNum ≤ totalParts
    · by_cases hok : oracle callIdx = true
      · rw [uploadLoop_succ_ok hle hok] at hres ⊢
        have := ih _ _ _ _ _ hec hres
        simpa [failedPutCount, isFailedPut] using this
      · have hokf : oracle callIdx = false := by
          cases hcase : oracle callIdx
          · rfl
          · exact absurd hcase hok
        by_cases herr : errorCount < 10
        · rw [uploadLoop_succ_retry hle hokf herr] at hres ⊢
          have := ih _ (errorCount + 1) _ _ _ (by omega) hres
          simp only [failedPutCount, isFailedPut, List.filter_cons] at this ⊢
          simp at this ⊢
          omega
        · rw [uploadLoop_succ_fatal hle hokf herr] at hres
          exact absurd hres (by simp)
    · rw [uploadLoop_succ_exit hle] at hres ⊢
      simpa [failedPutCount] using hec

theorem uploadLoop_fail_bound (size : Nat) (oracle : Nat → Bool) (totalParts : Nat) :
    ∀ (fuel partNum errorCount callIdx pos : Nat) (parts : List S3Part),
      errorCount ≤ 10 →
      failedPutCount
          (uploadLoop size oracle totalParts fuel partNum errorCount callIdx pos parts).1
        + errorCount ≤ 11 := by
  intro fuel
  induction fuel with
  | zero =>
    intro partNum errorCount callIdx pos parts hec
    simp [uploadLoop, failedPutCount]
    omega
  | succ fuel ih =>
    intro partNum errorCount callIdx pos parts hec
    by_cases hle : partNum ≤ totalParts
    · by_cases hok : oracle callIdx = true
      · rw [uploadLoop_succ_ok hle hok]
        have := ih (partNum + 1) errorCount (callIdx + 1) (pos + min chunkSize (size - pos))
          (parts.set (partNum - 1) ⟨partNum, min chunkSize (size - pos)⟩) hec
        simpa [failedPutCount, isFailedPut] using this
      · have hokf : oracle callIdx = false := by
          cases hcase : oracle callIdx
          · rfl
          · exact absurd hcase hok
        by_cases herr : errorCount < 10
        · rw [uploadLoop_succ_retry hle hokf herr]
          have := ih partNum (errorCount + 1) (callIdx + 1) pos
            (parts.set (partNum - 1) ⟨0, 0⟩) (by omega)
          simp only [failedPutCount, isFailedPut, List.filter_cons] at this ⊢
          simp at this ⊢
          omega
        · rw [uploadLoop_succ_fatal hle hokf herr]
          simp only [failedPutCount, isFailedPut, List.filter_cons]
          simp
          omega
    · rw [uploadLoop_succ_exit hle]
      simp [failedPutCount]
      omega

theorem partFailCount_le (k : Nat) : ∀ tr : List UEvent,
    partFailCount k tr ≤ failedPutCount tr := by
  intro tr
  induction tr with
  | nil => simp [partFailCount, failedPutCount]
  | cons e t ih =>
    simp only [partFailCount, failedPutCount, List.filter_cons] at ih ⊢
    have himp : isFailedPutOf k e = true → isFailedPut e = true := by
      cases e with
      | putPart n o sz ok =>
        cases ok
        · intro _; rfl
        · intro hcon; exact absurd hcon (by simp [isFailedPutOf])
      | sleep s => intro hcon; exact absurd hcon (by simp [isFailedPutOf])
      | complete ps => intro hcon; exact absurd hcon (by simp [isFailedPutOf])
      | putSingle sz => intro hcon; exact absurd hcon (by simp [isFailedPutOf])
    by_cases h1 : isFailedPutOf k e = true
    · have h2 := himp h1
      simp only [h1, h2, if_true]
      simp only [List.length_cons]
      omega
    · have h1f : isFailedPutOf k e = false := by
        cases hcase : isFailedPutOf k e
        · rfl
        · exact absurd hcase h1
      by_cases h2 : isFailedPut e = true
      · simp only [h1f, h2, if_true, Bool.false_eq_true, if_false]
        simp only [List.length_cons]
        omega
      · have h2f : isFailedPut e = false := by
          cases hcase : isFailedPut e
          · rfl
          · exact absurd hcase h2
        simp only [h1f, h2f, Bool.false_eq_true, if_false]
        omega

theorem uploadLoop_final_parts (size : Nat) (oracle : Nat → Bool) :
    ∀ (fuel partNum errorCount callIdx pos : Nat) (parts : List S3Part),
      1 ≤ partNum →
      (partNum ≤ totalPartsOf size → pos = (partNum - 1) * chunkSize) →
      parts.length = totalPartsOf size →
      (∀ j, j + 1 < partNum →
        parts[j]? = some ⟨j + 1, min chunkSize (size - j * chunkSize)⟩) →
      (uploadLoop size oracle (totalPartsOf size) fuel partNum errorCount callIdx
          pos parts).2.2 = true →
      (uploadLoop size oracle (totalPartsOf size) fuel partNum errorCount callIdx
          pos parts).2.1
        = (List.range (totalPartsOf size)).map
            (fun j => ⟨j + 1, min chunkSize (size - j * chunkSize)⟩) := by
  intro fuel
  induction fuel with
  | zero =>
    intro partNum errorCount callIdx pos parts h1 hinv hlen hset hres
    simp [uploadLoop] at hres
  | succ fuel ih =>
    intro partNum errorCount callIdx pos parts h1 hinv hlen hset hres
    by_cases hle : partNum ≤ totalPartsOf size
    · have hpos := hinv hle
      by_cases hok : oracle callIdx = true
      · rw [uploadLoop_succ_ok hle hok] at hres ⊢
        refine ih (partNum + 1) errorCount (callIdx + 1) (pos + min chunkSize (size - pos))
          (parts.set (partNum - 1) ⟨partNum, min chunkSize (size - pos)⟩)
          (by omega) ?_ ?_ ?_ hres
        · intro hle2
          rw [hpos]
          simp only [chunkSize, totalPartsOf] at *
          omega
        · simp [hlen]
        · intro j hj
          by_cases hjp : partNum - 1 = j
          · rw [← hjp]
            rw [List.getElem?_set_eq_of_lt _ (by rw [hlen]; omega)]
            rw [hpos]
            congr 2
            omega
          · rw [List.getElem?_set_ne hjp]
            exact hset j (by omega)
      · have hokf : oracle callIdx = false := by
          cases hcase : oracle callIdx
          · rfl
          · exact absurd hcase hok
        by_cases herr : errorCount < 10
        · rw [uploadLoop_succ_retry hle hokf herr] at hres ⊢
          refine ih partNum (errorCount + 1) (callIdx + 1) pos
            (parts.set (partNum - 1) ⟨0, 0⟩) h1 hinv ?_ ?_ hres
          · simp [hlen]
          · intro j hj
            rw [List.getElem?_set_ne (by omega)]
            exact hset j hj
        · rw [uploadLoop_succ_fatal hle hokf herr] at hres
          exact absurd hres (by simp)
    · rw [uploadLoop_succ_exit hle] at hres ⊢
      apply List.ext_getElem?
      intro j
      by_cases hj : j < totalPartsOf size
      · rw [hset j (by omega)]
        simp [List.getElem?_map, List.getElem?_range hj]
      · rw [List.getElem?_eq_none (by rw [hlen]; omega),
          List.getElem?_eq_none (by simp; omega)]

theorem failedPutCount_append (a b : List UEvent) :
    failedPutCount (a ++ b) = failedPutCount a + failedPutCount b := by
  simp [failedPutCount, List.filter_append]

/-- Counterexample to C3 as stated: the retry budget is one global counter,
    not a per-part budget. With part 1 failing ten times (consuming the
    whole budget) before succeeding, part 2's very first failure is fatal:
    part 2 is never retried, yet the upload fails. -/
theorem multipart_retry_counterexample :
    (multipartUpload (105 * 1024 * 1024) (fun k => k == 10) true true).2
      = UploadResult.failed ∧
    ((multipartUpload (105 * 1024 * 1024) (fun k => k == 10) true true).1.filter
        (isPutOf 2)).length = 1 ∧
    partFailCount 2 (multipartUpload (105 * 1024 * 1024) (fun k => k == 10) true true).1
      = 1 ∧
    partFailCount 1 (multipartUpload (105 * 1024 * 1024) (fun k => k == 10) true true).1
      = 10 := by
  exact ⟨by decide, by decide, by decide, by decide⟩

/-- C3 (amended): every PutPart call for part k sends exactly the bytes
    starting at offset (k-1)*chunkSize — a retried part is re-read from its
    own start offset, bytes acknowledged for other parts are never re-sent
    and none are skipped; each retry is preceded by a 5-second sleep; the
    retry bound of 10 is one global counter shared by all parts: at most 11
    PutPart calls ever fail, an 11th failure surfaces the error fatally with
    no completion, and the sample run — part 3 of 5 failing twice then
    succeeding — submits parts 1,2,3,3,3,4,5 with the retried part rewound
    to its start offset and completes with all five parts in order. -/
theorem multipart_retry_spec (size : Nat) (oracle : Nat → Bool) (initOk completeOk : Bool) :
    (∀ k o sz ok,
      UEvent.putPart k o sz ok ∈ (multipartUpload size oracle initOk completeOk).1 →
        1 ≤ k ∧ k ≤ totalPartsOf size ∧ o = (k - 1) * chunkSize ∧
          sz = min chunkSize (size - o)) ∧
    (∀ s, UEvent.sleep s ∈ (multipartUpload size oracle initOk completeOk).1 → s = 5) ∧
    failedPutCount (multipartUpload size oracle initOk completeOk).1 ≤ 11 ∧
    (11 ≤ failedPutCount (multipartUpload size oracle initOk completeOk).1 →
      (multipartUpload size oracle initOk completeOk).2 = .failed ∧
      ∀ ps, UEvent.complete ps ∉ (multipartUpload size oracle initOk completeOk).1) ∧
    multipartUpload (22 * 1024 * 1024) (fun k => !(k == 2 || k == 3)) true true
      = ([UEvent.putPart 1 0 chunkSize true,
          UEvent.putPart 2 chunkSize chunkSize true,
          UEvent.putPart 3 (2 * chunkSize) chunkSize false, UEvent.sleep 5,
          UEvent.putPart 3 (2 * chunkSize) chunkSize false, UEvent.sleep 5,
          UEvent.putPart 3 (2 * chunkSize) chunkSize true,
          UEvent.putPart 4 (3 * chunkSize) chunkSize true,
          UEvent.putPart 5 (4 * chunkSize) (22 * 1024 * 1024 - 4 * chunkSize) true,
          UEvent.complete [⟨1, chunkSize⟩, ⟨2, chunkSize⟩, ⟨3, chunkSize⟩, ⟨4, chunkSize⟩,
            ⟨5, 22 * 1024 * 1024 - 4 * chunkSize⟩]],
         UploadResult.completed) := by
  refine ⟨?_, ?_, ?_, ?_, by decide⟩
  · intro k o sz ok hmem
    unfold multipartUpload at hmem
    by_cases hinit : initOk = true
    · rw [if_pos hinit] at hmem
      rcases hloop : uploadLoop size oracle (totalPartsOf size) (totalPartsOf size + 12)
          1 0 0 0 (List.replicate (totalPartsOf size) ⟨0, 0⟩) with ⟨tr, parts, ok2⟩
      rw [hloop] at hmem
      have hinv : (1 : Nat) ≤ totalPartsOf size → (0 : Nat) = (1 - 1) * chunkSize := by
        intro _; simp
      cases ok2 with
      | true =>
        dsimp only at hmem
        rcases List.mem_append.mp hmem with hm | hm
        · exact uploadLoop_putPart_events size oracle _ 1 0 0 0 _ (by omega) hinv
            k o sz ok (by rw [hloop]; exact hm)
        · simp at hm
      | false =>
        dsimp only at hmem
        exact uploadLoop_putPart_events size oracle _ 1 0 0 0 _ (by omega) hinv
          k o sz ok (by rw [hloop]; exact hmem)
    · rw [if_neg hinit] at hmem
      simp at hmem
  · intro s hmem
    unfold multipartUpload at hmem
    by_cases hinit : initOk = true
    · rw [if_pos hinit] at hmem
      rcases hloop : uploadLoop size oracle (totalPartsOf size) (totalPartsOf size + 12)
          1 0 0 0 (List.replicate (totalPartsOf size) ⟨0, 0⟩) with ⟨tr, parts, ok2⟩
      rw [hloop] at hmem
      cases ok2 with
      | true =>
        dsimp only at hmem
        rcases List.mem_append.mp hmem with hm | hm
        · exact uploadLoop_sleep_events size oracle _ _ 1 0 0 0 _ s (by rw [hloop]; exact hm)
        · simp at hm
      | false =>
        dsimp only at hmem
        exact uploadLoop_sleep_events size oracle _ _ 1 0 0 0 _ s (by rw [hloop]; exact hmem)
    · rw [if_neg hinit] at hmem
      simp at hmem
  · unfold multipartUpload
    by_cases hinit : initOk = true
    · rw [if_pos hinit]
      rcases hloop : uploadLoop size oracle (totalPartsOf size) (totalPartsOf size + 12)
          1 0 0 0 (List.replicate (totalPartsOf size) ⟨0, 0⟩) with ⟨tr, parts, ok2⟩
      have hbound := uploadLoop_fail_bound size oracle (totalPartsOf size)
        (totalPartsOf size + 12) 1 0 0 0 (List.replicate (totalPartsOf size) ⟨0, 0⟩)
        (by omega)
      rw [hloop] at hbound
      cases ok2 with
      | true =>
        dsimp only
        rw [failedPutCount_append]
        simp only [failedPutCount, isFailedPut, List.filter_cons, List.filter_nil] at hbound ⊢
        simp at hbound ⊢
        omega
      | false =>
        dsimp only
        dsimp only at hbound
        omega
    · rw [if_neg hinit]
      simp [failedPutCount]
  · intro hcount
    unfold multipartUpload at hcount ⊢
    by_cases hinit : initOk = true
    · rw [if_pos hinit] at hcount ⊢
      rcases hloop : uploadLoop size oracle (totalPartsOf size) (totalPartsOf size + 12)
          1 0 0 0 (List.replicate (totalPartsOf size) ⟨0, 0⟩) with ⟨tr, parts, ok2⟩
      rw [hloop] at hcount
      cases ok2 with
      | true =>
        dsimp only at hcount
        rw [failedPutCount_append] at hcount
        have hok := uploadLoop_ok_fail_bound size oracle (totalPartsOf size)
          (totalPartsOf size + 12) 1 0 0 0 (List.replicate (totalPartsOf size) ⟨0, 0⟩)
          (by omega) (by rw [hloop])
        rw [hloop] at hok
        simp only [failedPutCount, isFailedPut, List.filter_cons, List.filter_nil] at hcount hok
        simp at hcount hok
        omega
      | false =>
        dsimp only at hcount ⊢
        refine ⟨rfl, ?_⟩
        intro ps hm
        exact uploadLoop_no_complete size oracle _ _ 1 0 0 0 _ ps (by rw [hloop]; exact hm)
    · rw [if_neg hinit] at hcount
      simp [failedPutCount] at hcount

theorem multipart_retry_spec_witness :
    (1 ≤ 3 ∧ 3 ≤ totalPartsOf (22 * 1024 * 1024) ∧
      2 * chunkSize = (3 - 1) * chunkSize ∧
      chunkSize = min chunkSize (22 * 1024 * 1024 - 2 * chunkSize)) ∧
    (5 : Nat) = 5 :=
  ⟨(multipart_retry_spec (22 * 1024 * 1024) (fun k => !(k == 2 || k == 3)) true true).1
      3 (2 * chunkSize) chunkSize false (by decide),
   (multipart_retry_spec (22 * 1024 * 1024) (fun k => !(k == 2 || k == 3)) true true).2.1
      5 (by decide)⟩

theorem multipartUpload_putPart_events (size : Nat) (oracle : Nat → Bool)
    (initOk completeOk : Bool) (k o sz : Nat) (ok : Bool)
    (hmem : UEvent.putPart k o sz ok ∈ (multipartUpload size oracle initOk completeOk).1) :
    1 ≤ k ∧ k ≤ totalPartsOf size ∧ o = (k - 1) * chunkSize ∧
      sz = min chunkSize (size - o) := by
  unfold multipartUpload at hmem
  by_cases hinit : initOk = true
  · rw [if_pos hinit] at hmem
    rcases hloop : uploadLoop size oracle (totalPartsOf size) (totalPartsOf size + 12)
        1 0 0 0 (List.replicate (totalPartsOf size) ⟨0, 0⟩) with ⟨tr, parts, ok2⟩
    rw [hloop] at hmem
    have hinv : (1 : Nat) ≤ totalPartsOf size → (0 : Nat) = (1 - 1) * chunkSize := by
      intro _; simp
    cases ok2 with
    | true =>
      dsimp only at hmem
      rcases List.mem_append.mp hmem with hm | hm
      · exact uploadLoop_putPart_events size oracle _ 1 0 0 0 _ (by omega) hinv
          k o sz ok (by rw [hloop]; exact hm)
      · simp at hm
    | false =>
      dsimp only at hmem
      exact uploadLoop_putPart_events size oracle _ 1 0 0 0 _ (by omega) hinv
        k o sz ok (by rw [hloop]; exact hmem)
  · rw [if_neg hinit] at hmem
    simp at hmem

theorem multipartUpload_complete_events (size : Nat) (oracle : Nat → Bool)
    (initOk completeOk : Bool) (ps : List S3Part)
    (hmem : UEvent.complete ps ∈ (multipartUpload size oracle initOk completeOk).1) :
    (∃ tr', (multipartUpload size oracle initOk completeOk).1
        = tr' ++ [UEvent.complete ps] ∧ ∀ qs, UEvent.complete qs ∉ tr') ∧
    ps = (List.range (totalPartsOf size)).map
      (fun j => ⟨j + 1, min chunkSize (size - j * chunkSize)⟩) := by
  unfold multipartUpload at hmem ⊢
  by_cases hinit : initOk = true
  · rw [if_pos hinit] at hmem ⊢
    rcases hloop : uploadLoop size oracle (totalPartsOf size) (totalPartsOf size + 12)
        1 0 0 0 (List.replicate (totalPartsOf size) ⟨0, 0⟩) with ⟨tr, parts, ok2⟩
    rw [hloop] at hmem
    have hnc := uploadLoop_no_complete size oracle (totalPartsOf size)
      (totalPartsOf size + 12) 1 0 0 0 (List.replicate (totalPartsOf size) ⟨0, 0⟩)
    cases ok2 with
    | false =>
      dsimp only at hmem
      have hthis := hnc ps
      rw [hloop] at hthis
      dsimp only at hthis
      exact absurd hmem hthis
    | true =>
      dsimp only at hmem ⊢
      have hfin := uploadLoop_final_parts size oracle (totalPartsOf size + 12) 1 0 0 0
        (List.replicate (totalPartsOf size) ⟨0, 0⟩) (by omega) (by intro _; simp)
        (by simp) (by intro j hj; exact absurd hj (by omega)) (by rw [hloop])
      rw [hloop] at hfin
      dsimp only at hfin
      rcases List.mem_append.mp hmem with hm | hm
      · have hthis := hnc ps
        rw [hloop] at hthis
        dsimp only at hthis
        exact absurd hm hthis
      · simp only [List.mem_singleton, UEvent.complete.injEq] at hm
        subst hm
        refine ⟨⟨tr, rfl, ?_⟩, hfin⟩
        intro qs hq
        have hthis := hnc qs
        rw [hloop] at hthis
        dsimp only at hthis
        exact absurd hq hthis
  · rw [if_neg hinit] at hmem
    simp at hmem

theorem multipartUpload_exhausted (size : Nat) (oracle : Nat → Bool) (initOk completeOk : Bool)
    (hcount : 11 ≤ failedPutCount (multipartUpload size oracle initOk completeOk).1) :
    (multipartUpload size oracle initOk completeOk).2 = .failed ∧
    ∀ ps, UEvent.complete ps ∉ (multipartUpload size oracle initOk completeOk).1 := by
  unfold multipartUpload at hcount ⊢
  by_cases hinit : initOk = true
  · rw [if_pos hinit] at hcount ⊢
    rcases hloop : uploadLoop size oracle (totalPartsOf size) (totalPartsOf size + 12)
        1 0 0 0 (List.replicate (totalPartsOf size) ⟨0, 0⟩) with ⟨tr, parts, ok2⟩
    rw [hloop] at hcount
    cases ok2 with
    | true =>
      dsimp only at hcount
      rw [failedPutCount_append] at hcount
      have hok := uploadLoop_ok_fail_bound size oracle (totalPartsOf size)
        (totalPartsOf size + 12) 1 0 0 0 (List.replicate (totalPartsOf size) ⟨0, 0⟩)
        (by omega) (by rw [hloop])
      rw [hloop] at hok
      simp only [failedPutCount, isFailedPut, List.filter_cons, List.filter_nil] at hcount hok
      simp at hcount hok
      omega
    | false =>
      dsimp only at hcount ⊢
      refine ⟨rfl, ?_⟩
      intro ps hm
      exact uploadLoop_no_complete size oracle _ _ 1 0 0 0 _ ps (by rw [hloop]; exact hm)
  · rw [if_neg hinit] at hcount
    simp [failedPutCount] at hcount

theorem chunk_full_of_lt (size k : Nat) (h1 : 1 ≤ k) (h2 : k < totalPartsOf size) :
    min chunkSize (size - (k - 1) * chunkSize) = chunkSize := by
  simp only [totalPartsOf, chunkSize] at *
  have h4 : (size + 5242880 - 1) / 5242880 * 5242880 ≤ size + 5242880 - 1 :=
    Nat.div_mul_le_self _ _
  omega

/-- C7: the upload step dispatches on the fixed 100 MiB threshold: above it
    the file goes through the multipart path, otherwise through a single
    streaming put. On the multipart path every part upload covers the fixed
    5 MiB chunk at its sequence position (the last part carrying the
    remainder, every earlier part a full chunk); a complete call, when one
    occurs, is single, final, and lists all `totalParts` parts in sequence
    order with their sizes; and if any single part accumulates 11 failed
    attempts the upload fails and no complete call occurs anywhere in the
    trace. -/
theorem uploadStep_spec (size : Nat) (oracle : Nat → Bool) (initOk completeOk singleOk : Bool) :
    (size ≤ 100 * 1024 * 1024 →
      uploadStep size oracle initOk completeOk singleOk
        = ([UEvent.putSingle size], if singleOk then .completed else .failed)) ∧
    (100 * 1024 * 1024 < size →
      uploadStep size oracle initOk completeOk singleOk
        = multipartUpload size oracle initOk completeOk) ∧
    (∀ k o sz ok,
      UEvent.putPart k o sz ok ∈ (uploadStep size oracle initOk completeOk singleOk).1 →
        sz = min chunkSize (size - (k - 1) * chunkSize) ∧
        (k < totalPartsOf size → sz = chunkSize)) ∧
    (∀ ps, UEvent.complete ps ∈ (uploadStep size oracle initOk completeOk singleOk).1 →
      (∃ tr', (uploadStep size oracle initOk completeOk singleOk).1
          = tr' ++ [UEvent.complete ps] ∧ ∀ qs, UEvent.complete qs ∉ tr') ∧
      ps = (List.range (totalPartsOf size)).map
        (fun j => ⟨j + 1, min chunkSize (size - j * chunkSize)⟩)) ∧
    (∀ k, 11 ≤ partFailCount k (uploadStep size oracle initOk completeOk singleOk).1 →
      (uploadStep size oracle initOk completeOk singleOk).2 = .failed ∧
      ∀ ps, UEvent.complete ps ∉ (uploadStep size oracle initOk completeOk singleOk).1) := by
  refine ⟨?_, ?_, ?_, ?_, ?_⟩
  · intro h
    unfold uploadStep
    rw [if_neg (by omega)]
  · intro h
    unfold uploadStep
    rw [if_pos h]
  · intro k o sz ok hmem
    by_cases hbig : 100 * 1024 * 1024 < size
    · rw [show uploadStep size oracle initOk completeOk singleOk
          = multipartUpload size oracle initOk completeOk from by
            unfold uploadStep; rw [if_pos hbig]] at hmem
      obtain ⟨h1, h2, h3, h4⟩ := multipartUpload_putPart_events size oracle initOk completeOk
        k o sz ok hmem
      subst h3
      refine ⟨h4, ?_⟩
      intro hk
      rw [h4]
      exact chunk_full_of_lt size k h1 hk
    · rw [show uploadStep size oracle initOk completeOk singleOk
          = ([UEvent.putSingle size], if singleOk then .completed else .failed) from by
            unfold uploadStep; rw [if_neg hbig]] at hmem
      simp at hmem
  · intro ps hmem
    by_cases hbig : 100 * 1024 * 1024 < size
    · rw [show uploadStep size oracle initOk completeOk singleOk
          = multipartUpload size oracle initOk completeOk from by
            unfold uploadStep; rw [if_pos hbig]] at hmem ⊢
      exact multipartUpload_complete_events size oracle initOk completeOk ps hmem
    · rw [show uploadStep size oracle initOk completeOk singleOk
          = ([UEvent.putSingle size], if singleOk then .completed else .failed) from by
            unfold uploadStep; rw [if_neg hbig]] at hmem
      simp at hmem
  · intro k hcount
    by_cases hbig : 100 * 1024 * 1024 < size
    · rw [show uploadStep size oracle initOk completeOk singleOk
          = multipartUpload size oracle initOk completeOk from by
            unfold uploadStep; rw [if_pos hbig]] at hcount ⊢
      have hle := partFailCount_le k (multipartUpload size oracle initOk completeOk).1
      exact multipartUpload_exhausted size oracle initOk completeOk (by omega)
    · rw [show uploadStep size oracle initOk completeOk singleOk
          = ([UEvent.putSingle size], if singleOk then .completed else .failed) from by
            unfold uploadStep; rw [if_neg hbig]] at hcount
      simp [partFailCount, isFailedPutOf] at hcount

theorem uploadStep_spec_witness :
    uploadStep 10 (fun _ => true) true true true
      = ([UEvent.putSingle 10], UploadResult.completed) ∧
    uploadStep (105 * 1024 * 1024) (fun _ => true) true true true
      = multipartUpload (105 * 1024 * 1024) (fun _ => true) true true ∧
    (chunkSize = min chunkSize (105 * 1024 * 1024 - (1 - 1) * chunkSize) ∧
      (1 < totalPartsOf (105 * 1024 * 1024) → chunkSize = chunkSize)) ∧
    ((uploadStep (105 * 1024 * 1024) (fun _ => false) true true true).2
        = UploadResult.failed ∧
      ∀ ps, UEvent.complete ps
        ∉ (uploadStep (105 * 1024 * 1024) (fun _ => false) true true true).1) :=
  ⟨(uploadStep_spec 10 (fun _ => true) true true true).1 (by decide),
   (uploadStep_spec (105 * 1024 * 1024) (fun _ => true) true true true).2.1 (by decide),
   (uploadStep_spec (105 * 1024 * 1024) (fun _ => true) true true true).2.2.1
     1 0 chunkSize true (by decide),
   (uploadStep_spec (105 * 1024 * 1024) (fun _ => false) true true true).2.2.2.2
     1 (by decide)⟩

/-- C8: during a publish, a manifest fetch answered with the typed NoSuchKey
    error is not an error: `getManifest` returns the synthesized empty
    manifest named after the configured box name (no versions); every other
    fetch error, and every JSON decode failure on a fetched body, is
    propagated as an error. -/
theorem getManifest_spec (boxName : String)
    (decode : String → Except String Manifest) :
    (getManifest boxName (.awsError "NoSuchKey") decode
      = .ok ⟨boxName, []⟩) ∧
    (∀ code, code ≠ "NoSuchKey" →
      getManifest boxName (.awsError code) decode = .error code) ∧
    (∀ msg, getManifest boxName (.otherError msg) decode = .error msg) ∧
    (∀ body m, decode body = .ok m →
      getManifest boxName (.ok body) decode = .ok m) ∧
    (∀ body e, decode body = .error e →
      getManifest boxName (.ok body) decode = .error e) := by
  refine ⟨?_, ?_, ?_, ?_, ?_⟩
  · simp [getManifest]
  · intro code hc
    simp [getManifest, hc]
  · intro msg
    rfl
  · intro body m h
    simp [getManifest, h]
  · intro body e h
    simp [getManifest, h]

theorem getManifest_spec_witness :
    getManifest "b" (.awsError "x") (fun _ => Except.error "d") = .error "x" ∧
    getManifest "b" (.ok "body") (fun _ => Except.error "d") = .error "d" :=
  ⟨(getManifest_spec "b" (fun _ => Except.error "d")).2.1 "x" (by decide),
   (getManifest_spec "b" (fun _ => Except.error "d")).2.2.2.2 "body" "d" rfl⟩

/-- Counterexample to C4 as stated: the claimed order computes the checksum
    before resolving the version, but the code resolves the version first
    (fetching the manifest inside `determineVersion` when no explicit version
    is configured): in this successful run the version is already resolved
    within the first three steps while the checksum has not yet been
    computed. -/
theorem postProcess_order_counterexample :
    (postProcess ⟨"box", "dir", "", "us-east-1", "bkt", "", "manifest.json", 0⟩
        ⟨"vagrant", "virtualbox", "a.box", .ok 10, .awsError "NoSuchKey", .ok "c",
         none, .awsError "NoSuchKey", fun _ => Except.error "x", Except.error "x",
         none⟩).1
      = ppFullTrace 10 "0.1.0" ∧
    PEvent.versionResolved "0.1.0" ∈
      ((postProcess ⟨"box", "dir", "", "us-east-1", "bkt", "", "manifest.json", 0⟩
        ⟨"vagrant", "virtualbox", "a.box", .ok 10, .awsError "NoSuchKey", .ok "c",
         none, .awsError "NoSuchKey", fun _ => Except.error "x", Except.error "x",
         none⟩).1.take 3) ∧
    PEvent.checksummed ∉
      ((postProcess ⟨"box", "dir", "", "us-east-1", "bkt", "", "manifest.json", 0⟩
        ⟨"vagrant", "virtualbox", "a.box", .ok 10, .awsError "NoSuchKey", .ok "c",
         none, .awsError "NoSuchKey", fun _ => Except.error "x", Except.error "x",
         none⟩).1.take 3) := by
  refine ⟨by decide, by decide, by decide⟩

/-- C4 (amended): `PostProcess` runs its stages in one fixed order —
    validate the artifact, stat the box, resolve the version (fetching the
    manifest when none is configured), checksum, upload the box, fetch the
    manifest, merge the new provider entry, persist the manifest — so its
    trace is always a prefix of that full sequence; a failure at any stage
    stops the run there (every later stage is missing from the trace, and
    nothing is undone); and a successful run has executed every stage and
    returns the manifest's URL, not the box's. -/
theorem postProcess_order (cfg : PPConfig) (w : PPWorld) :
    (∃ size version n, (postProcess cfg w).1 = (ppFullTrace size version).take n) ∧
    (∀ u, (postProcess cfg w).2 = .ok u →
      (∃ size version, (postProcess cfg w).1 = ppFullTrace size version) ∧
      u = generateS3Url cfg.region cfg.bucket cfg.cloudFront cfg.manifestPath) ∧
    (∀ e, (postProcess cfg w).2 = .error e →
      PEvent.manifestPut ∉ (postProcess cfg w).1) := by
  unfold postProcess
  by_cases hb : w.builderId ≠ "mitchellh.post-processor.vagrant" ∧ w.builderId ≠ "vagrant"
  · rw [if_pos hb]
    exact ⟨⟨0, "", 0, rfl⟩, fun u hu => by simp at hu, fun e he => by simp⟩
  · rw [if_neg hb]
    by_cases hsuf : hasSuffix w.boxFile ".box" = true
    · rw [if_neg (not_not_intro hsuf)]
      rcases hst : w.statResult with e | size
      · dsimp only
        exact ⟨⟨0, "", 1, rfl⟩, fun u hu => by simp at hu, fun e he => by simp⟩
      · dsimp only
        rcases hver : (if cfg.version = ""
            then determineVersion cfg.boxName w.fetchVersion w.decode
            else Except.ok cfg.version) with e | version
        · dsimp only
          exact ⟨⟨size, "", 2, rfl⟩, fun u hu => by simp at hu, fun e he => by simp⟩
        · dsimp only
          rcases hck : w.checksumResult with e | checksum
          · dsimp only
            exact ⟨⟨size, version, 3, rfl⟩, fun u hu => by simp at hu, fun e he => by simp⟩
          · dsimp only
            rcases hup : w.uploadResult with _ | e
            · dsimp only
              rcases hgm : getManifest cfg.boxName w.fetchManifest w.decode with e | manifest
              · dsimp only
                exact ⟨⟨size, version, 5, rfl⟩, fun u hu => by simp at hu,
                  fun e he => by simp⟩
              · dsimp only
                rcases hurl : (if cfg.signedExpiry = 0 then
                      Except.ok (generateS3Url cfg.region cfg.bucket cfg.cloudFront
                        (cfg.boxDir ++ "/" ++ version ++ "/" ++ pathBase w.boxFile))
                    else w.presignResult) with e | url
                · dsimp only
                  exact ⟨⟨size, version, 6, rfl⟩, fun u hu => by simp at hu,
                    fun e he => by simp⟩
                · dsimp only
                  rcases hadd : Manifest.add manifest version
                      ⟨providerFromBuilderName w.artifactId, url, "sha256", checksum⟩
                    with ⟨m2, oe⟩
                  cases oe with
                  | some e =>
                    dsimp only
                    exact ⟨⟨size, version, 6, rfl⟩, fun u hu => by simp at hu,
                      fun e he => by simp⟩
                  | none =>
                    dsimp only
                    rcases hput : w.putResult with _ | e
                    · dsimp only
                      exact ⟨⟨size, version, 8, rfl⟩,
                        fun u hu => ⟨⟨size, version, rfl⟩, by simp at hu; exact hu.symm⟩,
                        fun e he => by simp at he⟩
                    · dsimp only
                      exact ⟨⟨size, version, 7, rfl⟩, fun u hu => by simp at hu,
                        fun e he => by simp⟩
            · dsimp only
              exact ⟨⟨size, version, 4, rfl⟩, fun u hu => by simp at hu, fun e he => by simp⟩
    · rw [if_pos hsuf]
      exact ⟨⟨0, "", 0, rfl⟩, fun u hu => by simp at hu, fun e he => by simp⟩

theorem postProcess_order_witness :
    (∃ size version,
      (postProcess ⟨"box", "dir", "1.0.0", "eu-west-1", "bkt", "", "manifest.json", 0⟩
          ⟨"vagrant", "virtualbox", "a.box", .ok 10, .awsError "NoSuchKey", .ok "c",
           none, .awsError "NoSuchKey", fun _ => Except.error "x", Except.error "x",
           none⟩).1 = ppFullTrace size version) ∧
    "https://s3-eu-west-1.amazonaws.com/bkt/manifest.json"
      = generateS3Url "eu-west-1" "bkt" "" "manifest.json" :=
  (postProcess_order ⟨"box", "dir", "1.0.0", "eu-west-1", "bkt", "", "manifest.json", 0⟩
      ⟨"vagrant", "virtualbox", "a.box", .ok 10, .awsError "NoSuchKey", .ok "c",
       none, .awsError "NoSuchKey", fun _ => Except.error "x", Except.error "x",
       none⟩).2.1
    "https://s3-eu-west-1.amazonaws.com/bkt/manifest.json" rfl
